import Mathlib

/-!
Verification development for `sappy.py`, a license classifier: text
normalization (`clean`), template loading (`load_license_templates`) and a
cosine-similarity argmax (`detect_license`).

Modelling conventions.

Strings are modelled as `List Char`.  Python's `re.sub('[^\x7b-1\x7d]', ...)`
character class `\w` is modelled on ASCII (letters, digits, underscore), which
covers every input the theorems quantify over.

The two external libraries used by the program are not part of the repository,
so they are modelled explicitly:

* `Porter.stem` models `nltk.stem.porter.PorterStemmer().stem` in its default
  NLTK_EXTENSIONS mode (irregular-form pool, length-2 early return, the NLTK
  variants of steps 1a, 1b, 1c, 2, and the extended cvc test).

* The TF-IDF vectorizer (`sklearn.feature_extraction.text.TfidfVectorizer`)
  is modelled by `tokenize` (lowercasing, the default token pattern - maximal
  word-character runs of length at least two - and stop-word removal),
  `docVec` (term frequency times an inverse-document-frequency weight) and the
  empty-vocabulary `ValueError` of `fit_transform`.  The stop-word list and
  the smoothed idf weights are fixed external data, so they enter the model as
  parameters `stop` and `idf`; the true idf weights
  `log((1+n)/(1+df t)) + 1 >= 1` are strictly positive, and every theorem
  assumes at most positivity of `idf`.　The vectorizer's `l2` row
  normalization divides each row by a positive scalar, which leaves every
  cosine similarity unchanged (`cosine_similarity_smul` below), so rows are
  modelled unnormalized.

Floating point is modelled by exact arithmetic.  A cosine similarity is kept
in the exact form `a / sqrt b` as the pair `(a, b)`, and the single float
comparison performed by the program (`cos > max_similarity`) is the exact
comparison `sgt` on those pairs; `sgt_correct` proves it agrees with the real
ordering.  The division by zero that arises for a zero row produces a numpy
`nan` at runtime (never an exception, and every `nan > x` comparison is
false); the model writes this value `none`.

Python exceptions are modelled by `Except PyErr`.
-/

abbrev Str := List Char

/-- ASCII word character, the ASCII fragment of Python's regex class `\w`:
letters, digits and underscore. -/
def isWordChar (c : Char) : Bool :=
  (65 ≤ c.toNat && c.toNat ≤ 90) || (97 ≤ c.toNat && c.toNat ≤ 122) ||
    (48 ≤ c.toNat && c.toNat ≤ 57) || c.toNat == 95

/-- ASCII lower-casing, the behaviour of Python `str.lower` on ASCII. -/
def pyLowerChar (c : Char) : Char :=
  if 65 ≤ c.toNat ∧ c.toNat ≤ 90 then Char.ofNat (c.toNat + 32) else c

/-- ASCII upper-casing, the behaviour of Python `str.upper` on ASCII. -/
def pyUpperChar (c : Char) : Char :=
  if 97 ≤ c.toNat ∧ c.toNat ≤ 122 then Char.ofNat (c.toNat - 32) else c

/-- Python `str.strip` whitespace (ASCII fragment). -/
def isPySpace (c : Char) : Bool :=
  c == ' ' || c == '\t' || c == '\n' || c == '\r' || c.toNat == 11 || c.toNat == 12

namespace Porter

/-!
Modelled from the spec: step 4 of the Text Normalizer stems each token "with a
standard suffix-stripping algorithm (Porter stemming)".  The program calls
`nltk.stem.porter.PorterStemmer`, which is not part of this repository; the
definitions in this namespace model that implementation (default
NLTK_EXTENSIONS mode).
-/

def vowels : List Char := ['a', 'e', 'i', 'o', 'u']

/-- `PorterStemmer._is_consonant`: `y` counts as a consonant exactly when it is
the first letter or follows a non-consonant.  Out-of-range indices (which the
stemmer never queries) are mapped to `true`. -/
def isCons (w : Str) : Nat → Bool
  | 0 =>
    match w.get? 0 with
    | none => true
    | some c => if c ∈ vowels then false else true
  | i + 1 =>
    match w.get? (i + 1) with
    | none => true
    | some c =>
      if c ∈ vowels then false
      else if c = 'y' then !(isCons w i) else true

/-- Consonant/vowel pattern of a word (`true` marks a consonant). -/
def cvSeq (w : Str) : List Bool := (List.range w.length).map (isCons w)

/-- Count of (vowel, consonant) adjacent pairs, i.e. of `"vc"` occurrences in
the cv-pattern. -/
def countVC : List Bool → Nat
  | false :: true :: rest => countVC rest + 1
  | _ :: rest => countVC rest
  | [] => 0

/-- `PorterStemmer._measure`: the number of vowel-consonant transitions. -/
def measure (w : Str) : Nat := countVC (cvSeq w)

/-- `PorterStemmer._has_positive_measure`. -/
def hasPositiveMeasure (w : Str) : Bool := 0 < measure w

/-- `PorterStemmer._contains_vowel`. -/
def containsVowel (w : Str) : Bool := (List.range w.length).any (fun i => !(isCons w i))

/-- `PorterStemmer._ends_double_consonant`. -/
def endsDoubleCons (w : Str) : Bool :=
  2 ≤ w.length && w.get? (w.length - 1) == w.get? (w.length - 2) &&
    isCons w (w.length - 1)

/-- Last letter of the word is `w`, `x` or `y`. -/
def lastIsWXY (w : Str) : Bool :=
  match w.getLast? with
  | some c => c == 'w' || c == 'x' || c == 'y'
  | none => false

/-- `PorterStemmer._ends_cvc`, including the NLTK_EXTENSIONS two-letter
vowel-consonant case. -/
def endsCVC (w : Str) : Bool :=
  (3 ≤ w.length && isCons w (w.length - 3) && !(isCons w (w.length - 2)) &&
      isCons w (w.length - 1) && !(lastIsWXY w)) ||
    (w.length == 2 && !(isCons w 0) && isCons w 1)

/-- `PorterStemmer._replace_suffix`: drop the suffix, append the replacement. -/
def replaceSuffix (word sfx repl : Str) : Str :=
  word.take (word.length - sfx.length) ++ repl

/-- A rule is (suffix, replacement, condition); a `None` condition is encoded
as `fun _ => true`. -/
abbrev Rule := Str × Str × (Str → Bool)

/-- The special `"*d"` suffix marker. -/
def starD : Str := ['*', 'd']

/-- `PorterStemmer._apply_rule_list`: the first rule whose suffix matches is
applied; if its condition fails the word is returned unchanged. -/
def applyRuleList (word : Str) : List Rule → Str
  | [] => word
  | (sfx, repl, cond) :: rest =>
    if sfx == starD && endsDoubleCons word then
      if cond (word.take (word.length - 2)) then word.take (word.length - 2) ++ repl
      else word
    else if sfx.isSuffixOf word then
      if cond (replaceSuffix word sfx []) then replaceSuffix word sfx [] ++ repl
      else word
    else applyRuleList word rest

/-- `PorterStemmer._step1a` with the NLTK `"ies"`/length-4 extension. -/
def step1a (word : Str) : Str :=
  if "ies".toList.isSuffixOf word && word.length == 4 then
    replaceSuffix word "ies".toList "ie".toList
  else
    applyRuleList word
      [("sses".toList, "ss".toList, fun _ => true),
       ("ies".toList, "i".toList, fun _ => true),
       ("ss".toList, "ss".toList, fun _ => true),
       ("s".toList, [], fun _ => true)]

/-- Rule list used on the intermediate stem in `_step1b`; the `"*d"` rule
restores the doubled letter unless it is `l`, `s` or `z`. -/
def step1bRules (intermediate : Str) : List Rule :=
  [("at".toList, "ate".toList, fun _ => true),
   ("bl".toList, "ble".toList, fun _ => true),
   ("iz".toList, "ize".toList, fun _ => true),
   (starD,
    (match intermediate.getLast? with
     | some c => [c]
     | none => []),
    fun _ =>
      !(intermediate.getLast? == some 'l' || intermediate.getLast? == some 's' ||
        intermediate.getLast? == some 'z')),
   ([], "e".toList, fun st => measure st == 1 && endsCVC st)]

/-- `PorterStemmer._step1b` with the NLTK `"ied"` extension. -/
def step1b (word : Str) : Str :=
  if "ied".toList.isSuffixOf word then
    if word.length == 4 then replaceSuffix word "ied".toList "ie".toList
    else replaceSuffix word "ied".toList "i".toList
  else if "eed".toList.isSuffixOf word then
    if hasPositiveMeasure (replaceSuffix word "eed".toList []) then
      replaceSuffix word "eed".toList [] ++ "ee".toList
    else word
  else if "ed".toList.isSuffixOf word &&
      containsVowel (replaceSuffix word "ed".toList []) then
    applyRuleList (replaceSuffix word "ed".toList [])
      (step1bRules (replaceSuffix word "ed".toList []))
  else if "ing".toList.isSuffixOf word &&
      containsVowel (replaceSuffix word "ing".toList []) then
    applyRuleList (replaceSuffix word "ing".toList [])
      (step1bRules (replaceSuffix word "ing".toList []))
  else word

/-- `PorterStemmer._step1c` with the NLTK condition: `y -> i` when the stem has
length greater than one and ends in a consonant. -/
def step1c (word : Str) : Str :=
  applyRuleList word
    [("y".toList, "i".toList,
      fun st => 1 < st.length && isCons st (st.length - 1))]

/-- Rule list of `_step2` (NLTK mode: the `bli -> ble` variant and the
`fulli`/`logi` extensions; the `logi` condition looks at `word[:-3]`). -/
def step2Rules (word : Str) : List Rule :=
  [("ational".toList, "ate".toList, hasPositiveMeasure),
   ("tional".toList, "tion".toList, hasPositiveMeasure),
   ("enci".toList, "ence".toList, hasPositiveMeasure),
   ("anci".toList, "ance".toList, hasPositiveMeasure),
   ("izer".toList, "ize".toList, hasPositiveMeasure),
   ("bli".toList, "ble".toList, hasPositiveMeasure),
   ("alli".toList, "al".toList, hasPositiveMeasure),
   ("entli".toList, "ent".toList, hasPositiveMeasure),
   ("eli".toList, "e".toList, hasPositiveMeasure),
   ("ousli".toList, "ous".toList, hasPositiveMeasure),
   ("ization".toList, "ize".toList, hasPositiveMeasure),
   ("ation".toList, "ate".toList, hasPositiveMeasure),
   ("ator".toList, "ate".toList, hasPositiveMeasure),
   ("alism".toList, "al".toList, hasPositiveMeasure),
   ("iveness".toList, "ive".toList, hasPositiveMeasure),
   ("fulness".toList, "ful".toList, hasPositiveMeasure),
   ("ousness".toList, "ous".toList, hasPositiveMeasure),
   ("aliti".toList, "al".toList, hasPositiveMeasure),
   ("iviti".toList, "ive".toList, hasPositiveMeasure),
   ("biliti".toList, "ble".toList, hasPositiveMeasure),
   ("fulli".toList, "ful".toList, hasPositiveMeasure),
   ("logi".toList, "log".toList,
    fun _ => hasPositiveMeasure (word.take (word.length - 3)))]

/-- `PorterStemmer._step2`.  The NLTK mode applies `alli -> al` first and
re-runs step 2 on the result; each such rewrite shortens the word by two
characters, so `word.length` bounds the recursion depth and is used as fuel
(the fuel is never exhausted). -/
def step2Fuel : Nat → Str → Str
  | 0, word => word
  | fuel + 1, word =>
    if "alli".toList.isSuffixOf word &&
        hasPositiveMeasure (replaceSuffix word "alli".toList []) then
      step2Fuel fuel (replaceSuffix word "alli".toList "al".toList)
    else applyRuleList word (step2Rules word)

/-- `PorterStemmer._step2`. -/
def step2 (word : Str) : Str := step2Fuel word.length word

/-- `PorterStemmer._step3`. -/
def step3 (word : Str) : Str :=
  applyRuleList word
    [("icate".toList, "ic".toList, hasPositiveMeasure),
     ("ative".toList, [], hasPositiveMeasure),
     ("alize".toList, "al".toList, hasPositiveMeasure),
     ("iciti".toList, "ic".toList, hasPositiveMeasure),
     ("ical".toList, "ic".toList, hasPositiveMeasure),
     ("ful".toList, [], hasPositiveMeasure),
     ("ness".toList, [], hasPositiveMeasure)]

/-- Measure is greater than one (condition of most step-4 rules). -/
def measureGT1 (w : Str) : Bool := 1 < measure w

/-- `PorterStemmer._step4`; the `"ion"` rule also requires the stem to end in
`s` or `t`. -/
def step4 (word : Str) : Str :=
  applyRuleList word
    [("al".toList, [], measureGT1),
     ("ance".toList, [], measureGT1),
     ("ence".toList, [], measureGT1),
     ("er".toList, [], measureGT1),
     ("ic".toList, [], measureGT1),
     ("able".toList, [], measureGT1),
     ("ible".toList, [], measureGT1),
     ("ant".toList, [], measureGT1),
     ("ement".toList, [], measureGT1),
     ("ment".toList, [], measureGT1),
     ("ent".toList, [], measureGT1),
     ("ion".toList, [],
      fun st => measureGT1 st && (st.getLast? == some 's' || st.getLast? == some 't')),
     ("ou".toList, [], measureGT1),
     ("ism".toList, [], measureGT1),
     ("ate".toList, [], measureGT1),
     ("iti".toList, [], measureGT1),
     ("ous".toList, [], measureGT1),
     ("ive".toList, [], measureGT1),
     ("ize".toList, [], measureGT1)]

/-- `PorterStemmer._step5a`: drop a final `e` when the measure allows it. -/
def step5a (word : Str) : Str :=
  if "e".toList.isSuffixOf word then
    if 1 < measure (replaceSuffix word "e".toList []) then replaceSuffix word "e".toList []
    else if measure (replaceSuffix word "e".toList []) == 1 &&
        !(endsCVC (replaceSuffix word "e".toList [])) then replaceSuffix word "e".toList []
    else word
  else word

/-- `PorterStemmer._step5b`: `ll -> l` when the measure of `word[:-1]` is
greater than one. -/
def step5b (word : Str) : Str :=
  applyRuleList word
    [("ll".toList, "l".toList, fun _ => 1 < measure (word.take (word.length - 1)))]

/-- NLTK_EXTENSIONS irregular-form pool. -/
def pool : List (Str × Str) :=
  [("skies".toList, "sky".toList), ("sky".toList, "sky".toList),
   ("dying".toList, "die".toList), ("lying".toList, "lie".toList),
   ("tying".toList, "tie".toList), ("news".toList, "news".toList),
   ("innings".toList, "inning".toList), ("inning".toList, "inning".toList),
   ("outings".toList, "outing".toList), ("outing".toList, "outing".toList),
   ("cannings".toList, "canning".toList), ("canning".toList, "canning".toList),
   ("howe".toList, "howe".toList), ("proceed".toList, "proceed".toList),
   ("exceed".toList, "exceed".toList), ("succeed".toList, "succeed".toList)]

/-- `PorterStemmer.stem` (with the default `to_lowercase=True`): pool lookup,
early return for words of length at most two (returned unlowered, as in NLTK),
then steps 1a through 5b on the lowered word. -/
def stem (word : Str) : Str :=
  match pool.lookup word with
  | some v => v
  | none =>
    if word.length ≤ 2 then word
    else
      step5b (step5a (step4 (step3 (step2 (step1c (step1b (step1a
        (word.map pyLowerChar))))))))

end Porter

/-- Python `str.replace('  ', ' ')`: one left-to-right pass replacing each
non-overlapping occurrence of two spaces by one (not iterated to a fixed
point). -/
def collapseDoubleSpace : Str → Str
  | [] => []
  | [c] => [c]
  | c1 :: c2 :: rest =>
    if c1 = ' ' ∧ c2 = ' ' then ' ' :: collapseDoubleSpace rest
    else c1 :: collapseDoubleSpace (c2 :: rest)

/-- Python `str.split(' ')`: split at every single space, keeping empty
pieces (`''.split(' ') == ['']`). -/
def splitSp : Str → List Str
  | [] => [[]]
  | c :: rest =>
    if c = ' ' then [] :: splitSp rest
    else
      match splitSp rest with
      | t :: ts => (c :: t) :: ts
      | [] => [[c]]

/-- Python `str.strip()`. -/
def pyStrip (l : Str) : Str :=
  ((l.dropWhile isPySpace).reverse.dropWhile isPySpace).reverse

/-- `clean` from `sappy.py`: replace every character outside `[\w\d ]` by a
space, single-pass-collapse double spaces, lowercase, Porter-stem the tokens
obtained by splitting on single spaces, rejoin (via `reduce` starting from the
empty string, which prepends a space), and strip. -/
def clean (document : Str) : Str :=
  pyStrip
    ((splitSp ((collapseDoubleSpace
        (document.map (fun c => if isWordChar c || c == ' ' then c else ' '))).map
          pyLowerChar)).foldl
      (fun acc token => acc ++ ' ' :: Porter.stem token) [])

/-- Kinds of Python exceptions the embedded fragment can raise:
`FileNotFoundError` from `listdir` on a missing directory, `TypeError` from
`reduce` over the empty line list of an empty file, `ValueError` from
`fit_transform` on an empty vocabulary, `IndexError` from `names[...]` on an
empty corpus. -/
inductive PyErr
  | fileNotFound
  | typeError
  | valueError
  | indexError
deriving DecidableEq, Repr

deriving instance DecidableEq for Except

/-- `prepare_license_file`: `readlines` of an empty file yields `[]` and
`reduce` without an initial value raises `TypeError`; otherwise the
concatenation of the lines is the file content, returned cleaned. -/
def prepare_license_file (content : Str) : Except PyErr Str :=
  if content = [] then .error .typeError else .ok (clean content)

/-- Display name of a template file: `sub('-', ' ', lic_fn[:-4].upper())`. -/
def templateName (filename : Str) : Str :=
  ((filename.take (filename.length - 4)).map pyUpperChar).map
    (fun c => if c == '-' then ' ' else c)

/-- The loading loop of `load_license_templates`: names and cleaned texts are
appended in directory-listing order; the first empty file raises. -/
def loadLoop : List (Str × Str) → Except PyErr (List Str × List Str)
  | [] => .ok ([], [])
  | (fn, content) :: rest =>
    match prepare_license_file content with
    | .error e => .error e
    | .ok lic =>
      match loadLoop rest with
      | .error e => .error e
      | .ok (ns, ls) => .ok (templateName fn :: ns, lic :: ls)

/-- `load_license_templates`.  The directory is modelled as a listing of
(filename, content) pairs in directory-listing order (file contents as Python
reads them in text mode); `none` models a missing or unreadable directory, on
which `listdir` raises. -/
def load_license_templates (fs : Option (List (Str × Str))) :
    Except PyErr (List Str × List Str) :=
  match fs with
  | none => .error .fileNotFound
  | some listing => loadLoop (listing.filter (fun p => ".txt".toList.isSuffixOf p.1))

/-- Modelled from the spec: the vectorizer's analyzer (sklearn
`TfidfVectorizer`, external to the repository).  It lowercases, extracts
tokens with the default pattern - maximal word-character runs of length at
least two - and removes stop words.  This helper splits at non-word
characters, keeping empty pieces. -/
def splitNonWord : Str → List Str
  | [] => [[]]
  | c :: rest =>
    if isWordChar c then
      match splitNonWord rest with
      | t :: ts => (c :: t) :: ts
      | [] => [[c]]
    else [] :: splitNonWord rest

/-- Modelled from the spec: tokenization of one document by the vectorizer.
The fixed English stop-word list is external data and enters as the
parameter `stop`. -/
def tokenize (stop : Str → Bool) (doc : Str) : List Str :=
  ((splitNonWord (doc.map pyLowerChar)).filter (fun t => 2 ≤ t.length)).filter
    (fun t => !(stop t))

/-- Modelled from the spec: the TF-IDF row of a document, term frequency (raw
count) times the idf weight of the term.  The `l2` normalization of rows is
omitted: it rescales each row by a positive scalar, which changes no cosine
similarity (`cosine_similarity_smul`). -/
def docVec (idf : Str → ℤ) (toks : List Str) (t : Str) : ℤ :=
  (toks.count t : ℤ) * idf t

/-- `dot` from `sappy.py`: dot product of two rows over the joint
vocabulary. -/
def dot (vocab : List Str) (v w : Str → ℤ) : ℤ :=
  (vocab.map (fun t => v t * w t)).sum

/-- Exact value of one float similarity: `none` is `nan`; `some (a, b)` with
`b > 0` stands for the real number `a / sqrt b`. -/
abbrev Score := Option (ℤ × ℤ)

/-- `cosine_similarity` from `sappy.py`:
`dot(v, w) / (sqrt(dot(v, v)) * sqrt(dot(w, w)))`.  When a row is zero the
denominator is `0.0` and numpy produces `nan` (the numerator is then also
zero); otherwise the exact value `dot(v, w) / sqrt(dot(v, v) * dot(w, w))` is
kept as a pair. -/
def cosine_similarity (vocab : List Str) (v w : Str → ℤ) : Score :=
  if dot vocab v v * dot vocab w w = 0 then none
  else some (dot vocab v w, dot vocab v v * dot vocab w w)

/-- Exact model of the float comparison `cos > max_similarity`:
`a / sqrt b > c / sqrt d` decided by sign analysis and cross-multiplication;
any comparison against `nan` is false. -/
def sgt : Score → Score → Bool
  | none, _ => false
  | some _, none => false
  | some (a, b), some (c, d) =>
    if 0 < a then (if 0 < c then c ^ 2 * b < a ^ 2 * d else true)
    else if a = 0 then c < 0
    else (if c < 0 then a ^ 2 * d < c ^ 2 * b else false)

/-- Initial running maximum of the search loop: the float `-1`, i.e.
`-1 / sqrt 1`. -/
def scoreInit : Score := some (-1, 1)

/-- The search loop of `detect_license`: state is the running maximum, the
next index `i` and the best index so far; updates only on strict `>`. -/
def selectBestAux : List Score → Score → Nat → Nat → Nat
  | [], _, _, best => best
  | s :: rest, maxSim, i, best =>
    if sgt s maxSim then selectBestAux rest s (i + 1) i
    else selectBestAux rest maxSim (i + 1) best

/-- Index of the most similar license: loop from `max_similarity = -1`,
`index = 0`. -/
def selectBest (scores : List Score) : Nat := selectBestAux scores scoreInit 0 0

/-- The joint vocabulary fitted by `fit_transform` on the template rows plus
the candidate row: every token of every document, without duplicates. -/
def jointVocab (stop : Str → Bool) (licenses : List Str) (cleaned_doc : Str) : List Str :=
  ((licenses ++ [cleaned_doc]).map (fun d => tokenize stop d)).flatten.dedup

/-- The similarity scores computed by the search loop of `detect_license`, in
corpus order: the cosine of the candidate row against each template row. -/
def scoreList (stop : Str → Bool) (idf : Str → ℤ) (licenses : List Str)
    (cleaned_doc : Str) : List Score :=
  licenses.map
    (fun lic =>
      cosine_similarity (jointVocab stop licenses cleaned_doc)
        (docVec idf (tokenize stop cleaned_doc)) (docVec idf (tokenize stop lic)))

/-- `detect_license` from `sappy.py`: load the templates, clean the candidate
unless the caller says it is clean, fit the joint vocabulary (raising
`ValueError` when it is empty, as `fit_transform` does), score every template
row against the candidate row and return the name at the winning index
(`names[0]`, hence `IndexError`, when the corpus is empty). -/
def detect_license (fs : Option (List (Str × Str))) (document : Str)
    (cleaned : Bool) (stop : Str → Bool) (idf : Str → ℤ) : Except PyErr Str :=
  match load_license_templates fs with
  | .error e => .error e
  | .ok (names, licenses) =>
    if jointVocab stop licenses (if cleaned then document else clean document) = [] then
      .error .valueError
    else
      match names.get? (selectBest (scoreList stop idf licenses
          (if cleaned then document else clean document))) with
      | some nm => .ok nm
      | none => .error .indexError

/-- Lower-case ASCII letter. -/
def isLowerAlpha (c : Char) : Bool := 97 ≤ c.toNat && c.toNat ≤ 122

/-- Lower-case ASCII word character: lower-case letter, digit or
underscore. -/
def isLowerWord (c : Char) : Bool :=
  isLowerAlpha c || (48 ≤ c.toNat && c.toNat ≤ 57) || c.toNat == 95

/-- Character that can appear in the output of `clean`: lower-case word
character or space. -/
def isCleanChar (c : Char) : Bool := isLowerWord c || c == ' '

/-- ASCII letter or digit. -/
def isAlnumChar (c : Char) : Bool :=
  (65 ≤ c.toNat && c.toNat ≤ 90) || (97 ≤ c.toNat && c.toNat ≤ 122) ||
    (48 ≤ c.toNat && c.toNat ≤ 57)

/-- The string contains two adjacent spaces. -/
def hasDouble : Str → Bool
  | [] => false
  | [_] => false
  | c1 :: c2 :: rest => (c1 == ' ' && c2 == ' ') || hasDouble (c2 :: rest)

/-- The string contains three adjacent spaces. -/
def hasTriple : Str → Bool
  | [] => false
  | [_] => false
  | [_, _] => false
  | c1 :: c2 :: c3 :: rest =>
    (c1 == ' ' && c2 == ' ' && c3 == ' ') || hasTriple (c2 :: c3 :: rest)

/-- Join a token list with single spaces (the shape of `clean`'s output on
single-spaced input). -/
def joinTokens : List Str → Str
  | [] => []
  | [t] => t
  | t :: t2 :: ts => t ++ ' ' :: joinTokens (t2 :: ts)

/-! ### Character-level lemmas -/

lemma char_toNat_ofNat (n : Nat) (h : n < 55296) : (Char.ofNat n).toNat = n := by
  simp [Char.ofNat, Nat.isValidChar, h, Char.ofNatAux, Char.toNat, UInt32.toNat,
    BitVec.toNat_ofNatLt]

lemma pyLowerChar_eq_self (c : Char) (h : ¬(65 ≤ c.toNat ∧ c.toNat ≤ 90)) :
    pyLowerChar c = c := by
  unfold pyLowerChar; exact if_neg h

lemma pyLowerChar_toNat_upper (c : Char) (h : 65 ≤ c.toNat ∧ c.toNat ≤ 90) :
    (pyLowerChar c).toNat = c.toNat + 32 := by
  unfold pyLowerChar
  rw [if_pos h, char_toNat_ofNat]
  omega

lemma isLowerWord_pyLowerChar (c : Char) (h : isWordChar c = true) :
    isLowerWord (pyLowerChar c) = true := by
  simp only [isWordChar, Bool.or_eq_true, Bool.and_eq_true, decide_eq_true_eq,
    beq_iff_eq] at h
  by_cases hc : 65 ≤ c.toNat ∧ c.toNat ≤ 90
  · have h2 := pyLowerChar_toNat_upper c hc
    simp only [isLowerWord, isLowerAlpha, Bool.or_eq_true, Bool.and_eq_true,
      decide_eq_true_eq, beq_iff_eq, h2]
    omega
  · rw [pyLowerChar_eq_self c hc]
    simp only [isLowerWord, isLowerAlpha, Bool.or_eq_true, Bool.and_eq_true,
      decide_eq_true_eq, beq_iff_eq]
    omega

lemma pyLowerChar_of_isCleanChar (c : Char) (h : isCleanChar c = true) :
    pyLowerChar c = c := by
  apply pyLowerChar_eq_self
  simp only [isCleanChar, isLowerWord, isLowerAlpha, Bool.or_eq_true, Bool.and_eq_true,
    decide_eq_true_eq, beq_iff_eq] at h
  rcases h with ((h | h) | h) | h
  · omega
  · omega
  · omega
  · rw [h]; decide

lemma pyLowerChar_eq_space_iff (c : Char) : pyLowerChar c = ' ' ↔ c = ' ' := by
  constructor
  · intro h
    by_cases hc : 65 ≤ c.toNat ∧ c.toNat ≤ 90
    · exfalso
      have h2 := congrArg Char.toNat h
      rw [pyLowerChar_toNat_upper c hc] at h2
      have h3 : (' ' : Char).toNat = 32 := by decide
      rw [h3] at h2
      omega
    · rwa [pyLowerChar_eq_self c hc] at h
  · rintro rfl
    apply pyLowerChar_eq_self
    decide

lemma isCleanChar_of_isLowerWord (c : Char) (h : isLowerWord c = true) :
    isCleanChar c = true := by
  simp [isCleanChar, h]

lemma isLowerWord_of_isLowerAlpha (c : Char) (h : isLowerAlpha c = true) :
    isLowerWord c = true := by
  simp [isLowerWord, h]

/-! ### Porter stemmer: character closure

Every character of a stemmed word is a character of the input word or a
lower-case ASCII letter (every replacement string of every rule consists of
lower-case letters or of characters taken from the word itself). -/

lemma Porter.applyRuleList_chars (word : Str) (rules : List Porter.Rule)
    (hr : ∀ re ∈ rules.map (fun r => r.2.1), ∀ c ∈ re, c ∈ word ∨ isLowerAlpha c = true) :
    ∀ c ∈ Porter.applyRuleList word rules, c ∈ word ∨ isLowerAlpha c = true := by
  induction rules with
  | nil => intro c hc; exact Or.inl hc
  | cons r rest ih =>
    obtain ⟨sfx, repl, cond⟩ := r
    intro c hc
    simp only [Porter.applyRuleList] at hc
    by_cases h1 : (sfx == Porter.starD && Porter.endsDoubleCons word) = true
    · rw [if_pos h1] at hc
      by_cases h2 : cond (word.take (word.length - 2)) = true
      · rw [if_pos h2] at hc
        rcases List.mem_append.mp hc with h | h
        · exact Or.inl (List.mem_of_mem_take h)
        · exact hr repl (by simp) c h
      · rw [if_neg h2] at hc; exact Or.inl hc
    · rw [if_neg h1] at hc
      by_cases h3 : sfx.isSuffixOf word = true
      · rw [if_pos h3] at hc
        by_cases h4 : cond (Porter.replaceSuffix word sfx []) = true
        · rw [if_pos h4] at hc
          rcases List.mem_append.mp hc with h | h
          · unfold Porter.replaceSuffix at h
            rw [List.append_nil] at h
            exact Or.inl (List.mem_of_mem_take h)
          · exact hr repl (by simp) c h
        · rw [if_neg h4] at hc; exact Or.inl hc
      · rw [if_neg h3] at hc
        exact ih (fun re hre => hr re (by simp at hre ⊢; exact Or.inr hre)) c hc

lemma Porter.replaceSuffix_chars (word sfx repl : Str)
    (hrep : ∀ c ∈ repl, isLowerAlpha c = true) :
    ∀ c ∈ Porter.replaceSuffix word sfx repl, c ∈ word ∨ isLowerAlpha c = true := by
  intro c hc
  rcases List.mem_append.mp hc with h | h
  · exact Or.inl (List.mem_of_mem_take h)
  · exact Or.inr (hrep c h)

lemma Porter.step1a_chars (w : Str) :
    ∀ c ∈ Porter.step1a w, c ∈ w ∨ isLowerAlpha c = true := by
  unfold Porter.step1a
  split
  · exact Porter.replaceSuffix_chars w _ _ (by decide)
  · apply Porter.applyRuleList_chars
    have h : ∀ re ∈ ([("sses".toList, "ss".toList, fun _ => true),
        ("ies".toList, "i".toList, fun _ => true),
        ("ss".toList, "ss".toList, fun _ => true),
        ("s".toList, [], fun _ => true)] : List Porter.Rule).map (fun r => r.2.1),
        ∀ c ∈ re, isLowerAlpha c = true := by decide
    exact fun re hre c hc => Or.inr (h re hre c hc)

lemma mem_of_getLast?_eq_some {α : Type} {l : List α} {e : α}
    (h : l.getLast? = some e) : e ∈ l := by
  obtain ⟨hne, rfl⟩ := List.mem_getLast?_eq_getLast (Option.mem_def.mpr h)
  exact List.getLast_mem hne

lemma Porter.mem_of_mem_replaceSuffix_nil {w sfx : Str} {c : Char}
    (h : c ∈ Porter.replaceSuffix w sfx []) : c ∈ w := by
  unfold Porter.replaceSuffix at h
  rw [List.append_nil] at h
  exact List.mem_of_mem_take h

lemma Porter.step1bRules_chars (intermediate : Str) :
    ∀ re ∈ (Porter.step1bRules intermediate).map (fun r => r.2.1),
      ∀ c ∈ re, c ∈ intermediate ∨ isLowerAlpha c = true := by
  intro re hre c hc
  simp only [Porter.step1bRules, List.map_cons, List.map_nil, List.mem_cons,
    List.not_mem_nil, or_false] at hre
  rcases hre with rfl | rfl | rfl | rfl | rfl
  · have hx : ∀ d ∈ "ate".toList, isLowerAlpha d = true := by decide
    exact Or.inr (hx c hc)
  · have hx : ∀ d ∈ "ble".toList, isLowerAlpha d = true := by decide
    exact Or.inr (hx c hc)
  · have hx : ∀ d ∈ "ize".toList, isLowerAlpha d = true := by decide
    exact Or.inr (hx c hc)
  · rcases hlast : intermediate.getLast? with _ | e
    · rw [hlast] at hc
      have hc2 : c ∈ ([] : Str) := hc
      simp at hc2
    · rw [hlast] at hc
      have hc2 : c ∈ [e] := hc
      rw [List.mem_singleton] at hc2
      subst hc2
      exact Or.inl (mem_of_getLast?_eq_some hlast)
  · have hx : ∀ d ∈ "e".toList, isLowerAlpha d = true := by decide
    exact Or.inr (hx c hc)

lemma Porter.step1b_chars (w : Str) :
    ∀ c ∈ Porter.step1b w, c ∈ w ∨ isLowerAlpha c = true := by
  unfold Porter.step1b
  split
  · split
    · exact Porter.replaceSuffix_chars w _ _ (by decide)
    · exact Porter.replaceSuffix_chars w _ _ (by decide)
  · split
    · split
      · intro c hc
        rcases List.mem_append.mp hc with h | h
        · exact Or.inl (Porter.mem_of_mem_replaceSuffix_nil h)
        · have hx : ∀ d ∈ "ee".toList, isLowerAlpha d = true := by decide
          exact Or.inr (hx c h)
      · exact fun c hc => Or.inl hc
    · split
      · intro c hc
        have key := Porter.applyRuleList_chars (Porter.replaceSuffix w "ed".toList []) _
          (Porter.step1bRules_chars (Porter.replaceSuffix w "ed".toList [])) c hc
        rcases key with h | h
        · exact Or.inl (Porter.mem_of_mem_replaceSuffix_nil h)
        · exact Or.inr h
      · split
        · intro c hc
          have key := Porter.applyRuleList_chars (Porter.replaceSuffix w "ing".toList []) _
            (Porter.step1bRules_chars (Porter.replaceSuffix w "ing".toList [])) c hc
          rcases key with h | h
          · exact Or.inl (Porter.mem_of_mem_replaceSuffix_nil h)
          · exact Or.inr h
        · exact fun c hc => Or.inl hc

lemma Porter.applyRuleList_chars_concrete (word : Str) (rules : List Porter.Rule)
    (h : ∀ re ∈ rules.map (fun r => r.2.1), ∀ c ∈ re, isLowerAlpha c = true) :
    ∀ c ∈ Porter.applyRuleList word rules, c ∈ word ∨ isLowerAlpha c = true :=
  Porter.applyRuleList_chars word rules (fun re hre c hc => Or.inr (h re hre c hc))

lemma Porter.step1c_chars (w : Str) :
    ∀ c ∈ Porter.step1c w, c ∈ w ∨ isLowerAlpha c = true :=
  Porter.applyRuleList_chars_concrete w _ (by decide)

lemma Porter.step2Fuel_chars (fuel : Nat) :
    ∀ (w : Str), ∀ c ∈ Porter.step2Fuel fuel w, c ∈ w ∨ isLowerAlpha c = true := by
  induction fuel with
  | zero => intro w c hc; exact Or.inl hc
  | succ n ih =>
    intro w c hc
    simp only [Porter.step2Fuel] at hc
    by_cases h1 : ("alli".toList.isSuffixOf w &&
        Porter.hasPositiveMeasure (Porter.replaceSuffix w "alli".toList [])) = true
    · rw [if_pos h1] at hc
      rcases ih _ c hc with h | h
      · rcases List.mem_append.mp h with h2 | h2
        · exact Or.inl (List.mem_of_mem_take h2)
        · have hx : ∀ d ∈ "al".toList, isLowerAlpha d = true := by decide
          exact Or.inr (hx c h2)
      · exact Or.inr h
    · rw [if_neg h1] at hc
      refine Porter.applyRuleList_chars_concrete w _ ?_ c hc
      intro re hre
      simp only [Porter.step2Rules, List.map_cons, List.map_nil, List.mem_cons,
        List.not_mem_nil, or_false] at hre
      rcases hre with rfl | rfl | rfl | rfl | rfl | rfl | rfl | rfl | rfl | rfl | rfl |
        rfl | rfl | rfl | rfl | rfl | rfl | rfl | rfl | rfl | rfl | rfl <;> decide

lemma Porter.step2_chars (w : Str) :
    ∀ c ∈ Porter.step2 w, c ∈ w ∨ isLowerAlpha c = true :=
  fun c hc => Porter.step2Fuel_chars w.length w c hc

lemma Porter.step3_chars (w : Str) :
    ∀ c ∈ Porter.step3 w, c ∈ w ∨ isLowerAlpha c = true :=
  Porter.applyRuleList_chars_concrete w _ (by decide)

lemma Porter.step4_chars (w : Str) :
    ∀ c ∈ Porter.step4 w, c ∈ w ∨ isLowerAlpha c = true :=
  Porter.applyRuleList_chars_concrete w _ (by decide)

lemma Porter.step5a_chars (w : Str) :
    ∀ c ∈ Porter.step5a w, c ∈ w ∨ isLowerAlpha c = true := by
  unfold Porter.step5a
  split
  · split
    · exact fun c hc => Or.inl (Porter.mem_of_mem_replaceSuffix_nil hc)
    · split
      · exact fun c hc => Or.inl (Porter.mem_of_mem_replaceSuffix_nil hc)
      · exact fun c hc => Or.inl hc
  · exact fun c hc => Or.inl hc

lemma Porter.step5b_chars (w : Str) :
    ∀ c ∈ Porter.step5b w, c ∈ w ∨ isLowerAlpha c = true := by
  refine Porter.applyRuleList_chars_concrete w _ ?_
  intro re hre
  simp only [List.map_cons, List.map_nil, List.mem_cons, List.not_mem_nil,
    or_false] at hre
  subst hre
  decide

lemma lookup_mem_snd {α β : Type} [BEq α] :
    ∀ (l : List (α × β)) (k : α) (v : β), l.lookup k = some v → v ∈ l.map Prod.snd := by
  intro l
  induction l with
  | nil => intro k v h; simp [List.lookup] at h
  | cons p rest ih =>
    intro k v h
    obtain ⟨k1, b⟩ := p
    simp only [List.lookup] at h
    cases hk : (k == k1)
    · rw [hk] at h
      have h2 : List.lookup k rest = some v := h
      simp only [List.map_cons, List.mem_cons]
      exact Or.inr (ih k v h2)
    · rw [hk] at h
      have h2 : some b = some v := h
      simp only [Option.some.injEq] at h2
      subst h2
      simp

/-- Every character of a stemmed word is a character of the word, a character
of its lower-cased form, or a lower-case letter. -/
lemma Porter.stem_chars (w : Str) :
    ∀ c ∈ Porter.stem w, c ∈ w ∨ c ∈ w.map pyLowerChar ∨ isLowerAlpha c = true := by
  unfold Porter.stem
  split
  · rename_i v hv
    intro c hc
    right; right
    have hpool : ∀ v2 ∈ Porter.pool.map Prod.snd, ∀ d ∈ v2, isLowerAlpha d = true := by
      decide
    exact hpool v (lookup_mem_snd _ _ _ hv) c hc
  · split
    · exact fun c hc => Or.inl hc
    · intro c hc
      have chain : ∀ (u v : Str), (∀ c ∈ v, c ∈ u ∨ isLowerAlpha c = true) →
          (∀ c ∈ u, c ∈ w.map pyLowerChar ∨ isLowerAlpha c = true) →
          (∀ c ∈ v, c ∈ w.map pyLowerChar ∨ isLowerAlpha c = true) := by
        intro u v h1 h2 c hc
        rcases h1 c hc with h | h
        · exact h2 c h
        · exact Or.inr h
      have h0 : ∀ c ∈ w.map pyLowerChar, c ∈ w.map pyLowerChar ∨ isLowerAlpha c = true :=
        fun c hc => Or.inl hc
      have h1 := chain _ _ (Porter.step1a_chars (w.map pyLowerChar)) h0
      have h2 := chain _ _ (Porter.step1b_chars _) h1
      have h3 := chain _ _ (Porter.step1c_chars _) h2
      have h4 := chain _ _ (Porter.step2_chars _) h3
      have h5 := chain _ _ (Porter.step3_chars _) h4
      have h6 := chain _ _ (Porter.step4_chars _) h5
      have h7 := chain _ _ (Porter.step5a_chars _) h6
      have h8 := chain _ _ (Porter.step5b_chars _) h7
      exact Or.inr (h8 c hc)

/-- The stemmer maps strings of lower-case word characters to strings of
lower-case word characters. -/
lemma Porter.stem_isLowerWord (t : Str) (h : ∀ c ∈ t, isLowerWord c = true) :
    ∀ c ∈ Porter.stem t, isLowerWord c = true := by
  intro c hc
  rcases Porter.stem_chars t c hc with h1 | h1 | h1
  · exact h c h1
  · rw [List.mem_map] at h1
    obtain ⟨d, hd, rfl⟩ := h1
    rw [pyLowerChar_of_isCleanChar d (isCleanChar_of_isLowerWord d (h d hd))]
    exact h d hd
  · exact isLowerWord_of_isLowerAlpha _ h1

/-! ### Porter stemmer: nonempty output

The stemmer never maps a nonempty word to the empty string: every rule that
erases its suffix is guarded by a measure condition that fails on the empty
stem. -/

lemma append_ne_nil_left {a b : Str} (h : a ≠ []) : a ++ b ≠ [] := by
  simp [List.append_eq_nil, h]

lemma append_ne_nil_right {a b : Str} (h : b ≠ []) : a ++ b ≠ [] := by
  simp [List.append_eq_nil, h]

lemma Porter.hasPositiveMeasure_ne_nil {st : Str}
    (h : Porter.hasPositiveMeasure st = true) : st ≠ [] := by
  rintro rfl; exact absurd h (by decide)

lemma Porter.measureGT1_ne_nil {st : Str} (h : Porter.measureGT1 st = true) : st ≠ [] := by
  rintro rfl; exact absurd h (by decide)

lemma Porter.containsVowel_ne_nil {st : Str} (h : Porter.containsVowel st = true) :
    st ≠ [] := by
  rintro rfl; exact absurd h (by decide)

lemma take_ne_nil_of_lt {l : Str} {n : Nat} (h1 : l ≠ []) (h2 : 0 < n) : l.take n ≠ [] := by
  rw [Ne, List.take_eq_nil_iff]
  rintro (h | h)
  · omega
  · exact h1 h

lemma Porter.applyRuleList_ne_nil (word : Str) (rules : List Porter.Rule) (hw : word ≠ [])
    (hr : ∀ r ∈ rules, r.2.1 ≠ [] ∨ (∀ st, r.2.2 st = true → st ≠ []) ∨
      r.1.length < word.length) :
    Porter.applyRuleList word rules ≠ [] := by
  induction rules with
  | nil => simp only [Porter.applyRuleList]; exact hw
  | cons r rest ih =>
    obtain ⟨sfx, repl, cond⟩ := r
    have hr0 := hr (sfx, repl, cond) (by simp)
    simp only [Porter.applyRuleList]
    by_cases h1 : (sfx == Porter.starD && Porter.endsDoubleCons word) = true
    · rw [if_pos h1]
      by_cases h2 : cond (word.take (word.length - 2)) = true
      · rw [if_pos h2]
        rcases hr0 with h | h | h
        · exact append_ne_nil_right h
        · exact append_ne_nil_left (h _ h2)
        · apply append_ne_nil_left
          rw [Bool.and_eq_true] at h1
          have hsfx : sfx = Porter.starD := by
            have h3 := h1.1
            exact beq_iff_eq.mp h3
          rw [hsfx] at h
          have h4 : (Porter.starD.length : Nat) = 2 := rfl
          rw [h4] at h
          exact take_ne_nil_of_lt hw (by omega)
      · rw [if_neg h2]; exact hw
    · rw [if_neg h1]
      by_cases h3 : sfx.isSuffixOf word = true
      · rw [if_pos h3]
        by_cases h4 : cond (Porter.replaceSuffix word sfx []) = true
        · rw [if_pos h4]
          rcases hr0 with h | h | h
          · exact append_ne_nil_right h
          · exact append_ne_nil_left (h _ h4)
          · apply append_ne_nil_left
            unfold Porter.replaceSuffix
            apply append_ne_nil_left
            have h5 : sfx.length < word.length := h
            exact take_ne_nil_of_lt hw (by omega)
        · rw [if_neg h4]; exact hw
      · rw [if_neg h3]
        exact ih (fun r hrm => hr r (by simp [hrm]))

lemma Porter.step1a_ne_nil (w : Str) (hw : 3 ≤ w.length) : Porter.step1a w ≠ [] := by
  have hw0 : w ≠ [] := by rintro rfl; simp at hw
  unfold Porter.step1a
  split
  · exact append_ne_nil_right (by decide)
  · apply Porter.applyRuleList_ne_nil w _ hw0
    intro r hrm
    simp only [List.mem_cons, List.not_mem_nil, or_false] at hrm
    rcases hrm with rfl | rfl | rfl | rfl
    · left; decide
    · left; decide
    · left; decide
    · right; right
      show ("s".toList).length < w.length
      rw [show ("s".toList).length = 1 from rfl]
      omega

lemma Porter.step1bRules_ne_nil (intermediate : Str) (hint : intermediate ≠ []) :
    ∀ r ∈ Porter.step1bRules intermediate, r.2.1 ≠ [] ∨
      (∀ st, r.2.2 st = true → st ≠ []) ∨ r.1.length < intermediate.length := by
  intro r hrm
  simp only [Porter.step1bRules, List.mem_cons, List.not_mem_nil, or_false] at hrm
  rcases hrm with rfl | rfl | rfl | rfl | rfl
  · left; decide
  · left; decide
  · left; decide
  · left
    obtain ⟨e, he⟩ := Option.isSome_iff_exists.mp ((List.getLast?_isSome).mpr hint)
    show (match intermediate.getLast? with
      | some c => [c]
      | none => ([] : Str)) ≠ []
    rw [he]
    simp
  · left; decide

lemma Porter.step1b_ne_nil (w : Str) (hw : w ≠ []) : Porter.step1b w ≠ [] := by
  unfold Porter.step1b
  split
  · split
    · exact append_ne_nil_right (by decide)
    · exact append_ne_nil_right (by decide)
  · split
    · split
      · exact append_ne_nil_right (by decide)
      · exact hw
    · split
      · rename_i h
        rw [Bool.and_eq_true] at h
        have hint : Porter.replaceSuffix w "ed".toList [] ≠ [] :=
          Porter.containsVowel_ne_nil h.2
        exact Porter.applyRuleList_ne_nil _ _ hint (Porter.step1bRules_ne_nil _ hint)
      · split
        · rename_i h2
          rw [Bool.and_eq_true] at h2
          have hint : Porter.replaceSuffix w "ing".toList [] ≠ [] :=
            Porter.containsVowel_ne_nil h2.2
          exact Porter.applyRuleList_ne_nil _ _ hint (Porter.step1bRules_ne_nil _ hint)
        · exact hw

lemma Porter.step1c_ne_nil (w : Str) (hw : w ≠ []) : Porter.step1c w ≠ [] := by
  apply Porter.applyRuleList_ne_nil w _ hw
  intro r hrm
  simp only [List.mem_cons, List.not_mem_nil, or_false] at hrm
  subst hrm
  left; decide

lemma Porter.step2Fuel_ne_nil (fuel : Nat) :
    ∀ (w : Str), w ≠ [] → Porter.step2Fuel fuel w ≠ [] := by
  induction fuel with
  | zero => intro w hw; exact hw
  | succ n ih =>
    intro w hw
    simp only [Porter.step2Fuel]
    by_cases h1 : ("alli".toList.isSuffixOf w &&
        Porter.hasPositiveMeasure (Porter.replaceSuffix w "alli".toList [])) = true
    · rw [if_pos h1]
      exact ih _ (append_ne_nil_right (by decide))
    · rw [if_neg h1]
      apply Porter.applyRuleList_ne_nil w _ hw
      intro r hrm
      simp only [Porter.step2Rules, List.mem_cons, List.not_mem_nil, or_false] at hrm
      rcases hrm with rfl | rfl | rfl | rfl | rfl | rfl | rfl | rfl | rfl | rfl | rfl |
        rfl | rfl | rfl | rfl | rfl | rfl | rfl | rfl | rfl | rfl | rfl <;>
        (left; exact List.cons_ne_nil _ _)

lemma Porter.step2_ne_nil (w : Str) (hw : w ≠ []) : Porter.step2 w ≠ [] :=
  Porter.step2Fuel_ne_nil _ _ hw

lemma Porter.step3_ne_nil (w : Str) (hw : w ≠ []) : Porter.step3 w ≠ [] := by
  apply Porter.applyRuleList_ne_nil w _ hw
  intro r hrm
  simp only [List.mem_cons, List.not_mem_nil, or_false] at hrm
  rcases hrm with rfl | rfl | rfl | rfl | rfl | rfl | rfl
  · left; decide
  · right; left; exact fun st h => Porter.hasPositiveMeasure_ne_nil h
  · left; decide
  · left; decide
  · left; decide
  · right; left; exact fun st h => Porter.hasPositiveMeasure_ne_nil h
  · right; left; exact fun st h => Porter.hasPositiveMeasure_ne_nil h

lemma Porter.step4_ne_nil (w : Str) (hw : w ≠ []) : Porter.step4 w ≠ [] := by
  apply Porter.applyRuleList_ne_nil w _ hw
  intro r hrm
  simp only [List.mem_cons, List.not_mem_nil, or_false] at hrm
  rcases hrm with rfl | rfl | rfl | rfl | rfl | rfl | rfl | rfl | rfl | rfl | rfl |
    rfl | rfl | rfl | rfl | rfl | rfl | rfl | rfl
  all_goals
    (right; left; intro st h;
     first
      | exact Porter.measureGT1_ne_nil h
      | (have h2 : (Porter.measureGT1 st && (st.getLast? == some 's' ||
            st.getLast? == some 't')) = true := h
         rw [Bool.and_eq_true] at h2
         exact Porter.measureGT1_ne_nil h2.1))

lemma Porter.step5a_ne_nil (w : Str) (hw : w ≠ []) : Porter.step5a w ≠ [] := by
  unfold Porter.step5a
  split
  · split
    · rename_i h
      intro hst
      rw [hst] at h
      exact absurd h (by decide)
    · split
      · rename_i h
        intro hst
        rw [hst] at h
        exact absurd h (by decide)
      · exact hw
  · exact hw

lemma Porter.step5b_ne_nil (w : Str) (hw : w ≠ []) : Porter.step5b w ≠ [] := by
  apply Porter.applyRuleList_ne_nil w _ hw
  intro r hrm
  simp only [List.mem_cons, List.not_mem_nil, or_false] at hrm
  subst hrm
  left; exact List.cons_ne_nil _ _

/-- The stemmer maps nonempty words to nonempty words. -/
lemma Porter.stem_ne_nil (w : Str) (hw : w ≠ []) : Porter.stem w ≠ [] := by
  unfold Porter.stem
  split
  · rename_i v hv
    have hpool : ∀ v2 ∈ Porter.pool.map Prod.snd, v2 ≠ [] := by decide
    exact hpool v (lookup_mem_snd _ _ _ hv)
  · split
    · exact hw
    · rename_i hlen
      have hw3 : 3 ≤ (w.map pyLowerChar).length := by
        rw [List.length_map]; omega
      exact Porter.step5b_ne_nil _ (Porter.step5a_ne_nil _ (Porter.step4_ne_nil _
        (Porter.step3_ne_nil _ (Porter.step2_ne_nil _ (Porter.step1c_ne_nil _
        (Porter.step1b_ne_nil _ (Porter.step1a_ne_nil _ hw3)))))))

/-! ### Structure of `clean`'s output -/

lemma collapseDoubleSpace_subset :
    ∀ (l : Str), ∀ c ∈ collapseDoubleSpace l, c ∈ l := by
  have H : ∀ (n : Nat) (l : Str), l.length ≤ n → ∀ c ∈ collapseDoubleSpace l, c ∈ l := by
    intro n
    induction n with
    | zero =>
      intro l hl c hc
      have hnil : l = [] := List.eq_nil_of_length_eq_zero (by omega)
      subst hnil
      simpa [collapseDoubleSpace] using hc
    | succ n ih =>
      intro l hl c hc
      rcases l with _ | ⟨c1, _ | ⟨c2, rest⟩⟩
      · simpa [collapseDoubleSpace] using hc
      · simpa [collapseDoubleSpace] using hc
      · simp only [collapseDoubleSpace] at hc
        split at hc
        · rename_i hsp
          rcases List.mem_cons.mp hc with rfl | hmem
          · rw [hsp.1]; exact List.mem_cons_self _ _
          · have h2 := ih rest (by simp at hl ⊢; omega) c hmem
            exact List.mem_cons.mpr (Or.inr (List.mem_cons.mpr (Or.inr h2)))
        · rcases List.mem_cons.mp hc with rfl | hmem
          · exact List.mem_cons_self _ _
          · have h2 := ih (c2 :: rest) (by simp at hl ⊢; omega) c hmem
            exact List.mem_cons.mpr (Or.inr h2)
  exact fun l => H l.length l le_rfl

lemma splitSp_ne_nil : ∀ (l : Str), splitSp l ≠ [] := by
  intro l
  induction l with
  | nil => simp [splitSp]
  | cons c rest ih =>
    simp only [splitSp]
    split
    · simp
    · rcases hsp : splitSp rest with _ | ⟨t1, ts⟩
      · simp
      · simp

lemma splitSp_chars :
    ∀ (l : Str) (t : Str), t ∈ splitSp l → ∀ c ∈ t, c ∈ l ∧ c ≠ ' ' := by
  intro l
  induction l with
  | nil =>
    intro t ht c hc
    simp only [splitSp, List.mem_singleton] at ht
    subst ht
    simp at hc
  | cons c0 rest ih =>
    intro t ht c hc
    simp only [splitSp] at ht
    split at ht
    · rename_i hc0
      rcases List.mem_cons.mp ht with rfl | ht2
      · simp at hc
      · obtain ⟨h1, h2⟩ := ih t ht2 c hc
        exact ⟨List.mem_cons.mpr (Or.inr h1), h2⟩
    · rename_i hc0
      rcases hsp : splitSp rest with _ | ⟨t1, ts⟩
      · exact absurd hsp (splitSp_ne_nil rest)
      · rw [hsp] at ht
        rcases List.mem_cons.mp ht with rfl | ht2
        · rcases List.mem_cons.mp hc with rfl | hc2
          · exact ⟨List.mem_cons_self _ _, hc0⟩
          · obtain ⟨h1, h2⟩ := ih t1 (by rw [hsp]; exact List.mem_cons_self _ _) c hc2
            exact ⟨List.mem_cons.mpr (Or.inr h1), h2⟩
        · obtain ⟨h1, h2⟩ := ih t (by rw [hsp]; exact List.mem_cons.mpr (Or.inr ht2)) c hc
          exact ⟨List.mem_cons.mpr (Or.inr h1), h2⟩

lemma foldl_join_chars :
    ∀ (ts : List Str) (acc : Str) (c : Char),
      c ∈ ts.foldl (fun acc token => acc ++ ' ' :: Porter.stem token) acc →
      c ∈ acc ∨ c = ' ' ∨ ∃ t ∈ ts, c ∈ Porter.stem t := by
  intro ts
  induction ts with
  | nil => intro acc c hc; exact Or.inl hc
  | cons t ts ih =>
    intro acc c hc
    simp only [List.foldl_cons] at hc
    rcases ih _ c hc with h | h | h
    · rcases List.mem_append.mp h with h2 | h2
      · exact Or.inl h2
      · rcases List.mem_cons.mp h2 with rfl | h3
        · exact Or.inr (Or.inl rfl)
        · exact Or.inr (Or.inr ⟨t, by simp, h3⟩)
    · exact Or.inr (Or.inl h)
    · obtain ⟨t2, ht2, hct⟩ := h
      exact Or.inr (Or.inr ⟨t2, by simp [ht2], hct⟩)

lemma mem_pyStrip {l : Str} {c : Char} (h : c ∈ pyStrip l) : c ∈ l := by
  unfold pyStrip at h
  rw [List.mem_reverse] at h
  have h2 := (List.dropWhile_sublist _).subset h
  rw [List.mem_reverse] at h2
  exact (List.dropWhile_sublist _).subset h2

/-- C2 (amended).  On ASCII input (in particular on input made of letters,
digits, punctuation and whitespace), every character of `clean`'s output is a
lower-case letter, a digit, an underscore, or a space.  The underscore must be
admitted: the regex `[^\w\d ]` keeps `\w`-characters, and `\w` contains the
underscore, so underscores - which are ASCII punctuation - are not replaced by
a space (see `clean_underscore_counterexample`). -/
theorem clean_output_chars (x : Str) (hx : ∀ c ∈ x, c.toNat ≤ 127) :
    ∀ c ∈ clean x, isCleanChar c = true := by
  intro c hc
  unfold clean at hc
  have hc2 := mem_pyStrip hc
  rcases foldl_join_chars _ _ _ hc2 with h | h | h
  · simp at h
  · subst h; decide
  · obtain ⟨t, ht, hct⟩ := h
    have htchars : ∀ d ∈ t, isLowerWord d = true := by
      intro d hd
      obtain ⟨hmem, hne⟩ := splitSp_chars _ t ht d hd
      rw [List.mem_map] at hmem
      obtain ⟨e, he, rfl⟩ := hmem
      have he2 := collapseDoubleSpace_subset _ e he
      rw [List.mem_map] at he2
      obtain ⟨f, hf, rfl⟩ := he2
      by_cases hw : (isWordChar f || f == ' ') = true
      · rw [if_pos hw] at hne ⊢
        rw [Bool.or_eq_true] at hw
        rcases hw with hwf | hsp
        · exact isLowerWord_pyLowerChar _ hwf
        · exfalso
          rw [beq_iff_eq] at hsp
          subst hsp
          exact hne (pyLowerChar_eq_self _ (by decide))
      · rw [if_neg hw] at hne
        exfalso
        exact hne (pyLowerChar_eq_self _ (by decide))
    exact isCleanChar_of_isLowerWord _ (Porter.stem_isLowerWord t htchars c hct)

/-- C2 counterexample to the claim as stated: the underscore is an ASCII
punctuation character (so `"_"` is an input made only of punctuation), yet
`clean "_" = "_"`, and `'_'` lies outside the class `[a-z0-9 ]` the claim
allows.  The regex `[^\w\d ]` used by `clean` keeps `\w`-characters, and `\w`
includes the underscore. -/
theorem clean_underscore_counterexample :
    '_' ∈ clean "_".toList ∧
      ¬((97 ≤ '_'.toNat ∧ '_'.toNat ≤ 122) ∨ (48 ≤ '_'.toNat ∧ '_'.toNat ≤ 57) ∨
        '_' = ' ') := by
  decide

/-- Witness for `clean_output_chars` at the concrete ASCII input
`"Hello, World!"`. -/
theorem clean_output_chars_witness :
    (∀ c ∈ "Hello, World!".toList, c.toNat ≤ 127) ∧
      ∀ c ∈ clean "Hello, World!".toList, isCleanChar c = true :=
  ⟨by decide, clean_output_chars _ (by decide)⟩

/-- C3.  The space-collapsing step is one left-to-right pass, not an iteration
to a fixed point: the input `"a   b"` contains a run of three spaces, and the
normalized output `clean "a   b" = "a  b"` still contains a run of two
spaces. -/
theorem clean_single_pass_collapse :
    hasTriple "a   b".toList = true ∧ clean "a   b".toList = "a  b".toList ∧
      hasDouble (clean "a   b".toList) = true := by
  decide

/-! ### Template loader -/

lemma loadLoop_spec :
    ∀ (l : List (Str × Str)), (∀ p ∈ l, p.2 ≠ []) →
      loadLoop l = .ok (l.map (fun p => templateName p.1), l.map (fun p => clean p.2)) := by
  intro l
  induction l with
  | nil => intro _; rfl
  | cons p rest ih =>
    intro h
    obtain ⟨fn, content⟩ := p
    have hne : content ≠ [] := h (fn, content) (by simp)
    simp only [loadLoop, prepare_license_file]
    rw [if_neg hne, ih (fun q hq => h q (by simp [hq]))]
    rfl

/-- C7 (amended).  For a readable directory in which every `.txt` entry is a
non-empty file, `load_license_templates` returns, in directory-listing order,
the parallel sequences of display names (`.txt` stripped, upper-cased, hyphens
replaced by spaces: `templateName`) and of normalized file contents; the two
sequences have equal length.  The non-emptiness proviso is forced:
`prepare_license_file` raises `TypeError` on an empty file
(`load_empty_file_counterexample`). -/
theorem load_license_templates_spec (listing : List (Str × Str))
    (h : ∀ p ∈ listing, ".txt".toList.isSuffixOf p.1 = true → p.2 ≠ []) :
    load_license_templates (some listing) =
      .ok ((listing.filter (fun p => ".txt".toList.isSuffixOf p.1)).map
             (fun p => templateName p.1),
           (listing.filter (fun p => ".txt".toList.isSuffixOf p.1)).map
             (fun p => clean p.2)) ∧
      ((listing.filter (fun p => ".txt".toList.isSuffixOf p.1)).map
         (fun p => templateName p.1)).length =
        ((listing.filter (fun p => ".txt".toList.isSuffixOf p.1)).map
           (fun p => clean p.2)).length := by
  constructor
  · unfold load_license_templates
    apply loadLoop_spec
    intro p hp
    rw [List.mem_filter] at hp
    exact h p hp.1 hp.2
  · simp

/-- C7 counterexample to the claim as stated: a readable directory holding one
empty `.txt` file.  `readlines` yields `[]` and `reduce` without an initial
value raises `TypeError`, so `load_license_templates` raises instead of
returning the two sequences. -/
theorem load_empty_file_counterexample :
    load_license_templates (some [("empty.txt".toList, [])]) = .error .typeError := by
  decide

/-- Witness for `load_license_templates_spec` on a concrete directory listing:
the `.md` entry is skipped, the name is derived from the filename, the text is
normalized. -/
theorem load_license_templates_spec_witness :
    load_license_templates (some [("my-license.txt".toList, "Some Text".toList),
        ("README.md".toList, "x".toList)]) =
      .ok (["MY LICENSE".toList], [clean "Some Text".toList]) := by
  have h := (load_license_templates_spec
    [("my-license.txt".toList, "Some Text".toList), ("README.md".toList, "x".toList)]
    (by decide)).1
  rw [h]
  rfl

/-! ### The similarity scores -/

lemma cs_step (a b S P Q : ℤ) (h : S ^ 2 ≤ P * Q) (hP : 0 ≤ P) (hQ : 0 ≤ Q) :
    (a * b + S) ^ 2 ≤ (a ^ 2 + P) * (b ^ 2 + Q) := by
  rcases eq_or_lt_of_le hP with hP0 | hP0
  · have hS : S = 0 := by nlinarith [sq_nonneg S]
    subst hS
    nlinarith [mul_nonneg (sq_nonneg a) hQ, mul_nonneg (sq_nonneg b) hP, sq_nonneg (a * b)]
  · have key : 0 ≤ P * ((a ^ 2 + P) * (b ^ 2 + Q) - (a * b + S) ^ 2) := by
      nlinarith [sq_nonneg (a * S - b * P), mul_nonneg (sq_nonneg a) (sub_nonneg.mpr h),
        mul_nonneg (le_of_lt hP0) (sub_nonneg.mpr h)]
    have h2 := (mul_nonneg_iff_of_pos_left hP0).mp key
    linarith

lemma dot_nonneg (vocab : List Str) (v w : Str → ℤ) (hv : ∀ t, 0 ≤ v t)
    (hw : ∀ t, 0 ≤ w t) : 0 ≤ dot vocab v w := by
  apply List.sum_nonneg
  intro x hx
  rw [List.mem_map] at hx
  obtain ⟨t, _, rfl⟩ := hx
  exact mul_nonneg (hv t) (hw t)

lemma dot_self_nonneg (vocab : List Str) (v : Str → ℤ) : 0 ≤ dot vocab v v := by
  apply List.sum_nonneg
  intro x hx
  rw [List.mem_map] at hx
  obtain ⟨t, _, rfl⟩ := hx
  exact mul_self_nonneg _

lemma dot_zero_left (vocab : List Str) (v w : Str → ℤ) (hv : ∀ t ∈ vocab, v t = 0) :
    dot vocab v w = 0 := by
  apply List.sum_eq_zero
  intro x hx
  rw [List.mem_map] at hx
  obtain ⟨t, ht, rfl⟩ := hx
  rw [hv t ht, zero_mul]

lemma dot_self_pos (vocab : List Str) (v : Str → ℤ) (t : Str) (ht : t ∈ vocab)
    (hv : ∀ u, 0 ≤ v u) (hvt : 0 < v t) : 0 < dot vocab v v := by
  have hterm : 0 < v t * v t := mul_pos hvt hvt
  have hle : v t * v t ≤ dot vocab v v := by
    apply List.single_le_sum
    · intro x hx
      rw [List.mem_map] at hx
      obtain ⟨u, _, rfl⟩ := hx
      exact mul_self_nonneg _
    · exact List.mem_map.mpr ⟨t, ht, rfl⟩
  omega

/-- Cauchy-Schwarz for the vocabulary dot product. -/
lemma dot_sq_le (vocab : List Str) (v w : Str → ℤ) :
    (dot vocab v w) ^ 2 ≤ dot vocab v v * dot vocab w w := by
  induction vocab with
  | nil => simp [dot]
  | cons t rest ih =>
    have hdc : ∀ (f g : Str → ℤ), dot (t :: rest) f g = f t * g t + dot rest f g := by
      intro f g
      simp [dot]
    rw [hdc, hdc, hdc]
    nlinarith [cs_step (v t) (w t) (dot rest v w) (dot rest v v) (dot rest w w) ih
      (dot_self_nonneg rest v) (dot_self_nonneg rest w)]

lemma cosine_left_zero (vocab : List Str) (v w : Str → ℤ) (hv : ∀ t ∈ vocab, v t = 0) :
    cosine_similarity vocab v w = none := by
  unfold cosine_similarity
  rw [if_pos]
  rw [dot_zero_left vocab v v hv, zero_mul]

lemma cosine_ne_none_good (vocab : List Str) (v w : Str → ℤ) (hv : ∀ t, 0 ≤ v t)
    (hw : ∀ t, 0 ≤ w t) (h : cosine_similarity vocab v w ≠ none) :
    ∃ a b, cosine_similarity vocab v w = some (a, b) ∧ 0 ≤ a ∧ 0 < b := by
  unfold cosine_similarity at h ⊢
  by_cases hz : dot vocab v v * dot vocab w w = 0
  · rw [if_pos hz] at h
    exact absurd rfl h
  · rw [if_neg hz]
    refine ⟨_, _, rfl, dot_nonneg _ _ _ hv hw, ?_⟩
    exact lt_of_le_of_ne (mul_nonneg (dot_self_nonneg _ _) (dot_self_nonneg _ _)) (Ne.symm hz)

lemma cosine_self_eq (vocab : List Str) (v : Str → ℤ) (h : 0 < dot vocab v v) :
    cosine_similarity vocab v v = some (dot vocab v v, dot vocab v v * dot vocab v v) := by
  unfold cosine_similarity
  rw [if_neg (mul_pos h h).ne']

/-- Defining equation of `sgt` on two well-formed scores. -/
lemma sgt_some_some (a b c d : ℤ) :
    sgt (some (a, b)) (some (c, d)) =
      if 0 < a then (if 0 < c then decide (c ^ 2 * b < a ^ 2 * d) else true)
      else if a = 0 then decide (c < 0)
      else if c < 0 then decide (a ^ 2 * d < c ^ 2 * b) else false := rfl

/-- Any well-formed score beats the initial running maximum `-1`. -/
lemma sgt_scoreInit {a b : ℤ} (ha : 0 ≤ a) : sgt (some (a, b)) scoreInit = true := by
  rw [show scoreInit = some ((-1 : ℤ), (1 : ℤ)) from rfl, sgt_some_some]
  rcases lt_or_eq_of_le ha with h | h
  · rw [if_pos h, if_neg (by omega : ¬(0 : ℤ) < -1)]
  · rw [if_neg (by omega : ¬0 < a), if_pos h.symm]
    decide

/-- No cosine similarity exceeds the self-similarity of the candidate row:
Cauchy-Schwarz, expressed on the program's exact comparison. -/
lemma sgt_cosine_le_self (vocab : List Str) (v w : Str → ℤ) (hv : 0 < dot vocab v v) :
    sgt (cosine_similarity vocab v w)
      (some (dot vocab v v, dot vocab v v * dot vocab v v)) = false := by
  unfold cosine_similarity
  by_cases hz : dot vocab v v * dot vocab w w = 0
  · rw [if_pos hz]
    rfl
  · rw [if_neg hz]
    have hcs := dot_sq_le vocab v w
    have hww : 0 ≤ dot vocab w w := dot_self_nonneg _ _
    rw [sgt_some_some]
    by_cases ha : 0 < dot vocab v w
    · rw [if_pos ha, if_pos hv]
      simp only [decide_eq_false_iff_not, not_lt]
      nlinarith [sq_nonneg (dot vocab v v)]
    · rw [if_neg ha]
      by_cases ha0 : dot vocab v w = 0
      · rw [if_pos ha0]
        simp only [decide_eq_false_iff_not, not_lt]
        omega
      · rw [if_neg ha0, if_neg (by omega : ¬dot vocab v v < 0)]

/-! ### The search loop -/

lemma selectBestAux_no_update :
    ∀ (l : List Score) (m : Score) (i best : Nat),
      (∀ s ∈ l, sgt s m = false) → selectBestAux l m i best = best := by
  intro l
  induction l with
  | nil => intro m i best _; rfl
  | cons s rest ih =>
    intro m i best h
    have hs := h s (List.mem_cons_self _ _)
    simp only [selectBestAux]
    rw [if_neg (by simp [hs])]
    exact ih m (i + 1) best (fun s2 hs2 => h s2 (List.mem_cons.mpr (Or.inr hs2)))

lemma selectBestAux_argmax :
    ∀ (l : List Score) (j : Nat) (hj : j < l.length) (m : Score) (i best : Nat),
      sgt (l.get ⟨j, hj⟩) m = true →
      (∀ k (hk : k < l.length), sgt (l.get ⟨k, hk⟩) (l.get ⟨j, hj⟩) = false) →
      (∀ k (hk : k < j), sgt (l.get ⟨j, hj⟩) (l.get ⟨k, Nat.lt_trans hk hj⟩) = true) →
      selectBestAux l m i best = i + j := by
  intro l
  induction l with
  | nil =>
    intro j hj
    exact absurd hj (by simp)
  | cons s rest ih =>
    intro j hj m i best hbeat hmax hfirst
    match j with
    | 0 =>
      simp only [List.get] at hbeat
      simp only [selectBestAux]
      rw [if_pos hbeat]
      have hrest : ∀ s2 ∈ rest, sgt s2 s = false := by
        intro s2 hs2
        rw [List.mem_iff_get] at hs2
        obtain ⟨⟨k, hk⟩, rfl⟩ := hs2
        have h2 := hmax (k + 1) (by simp; omega)
        simpa using h2
      rw [selectBestAux_no_update rest s (i + 1) i hrest]
      omega
    | j2 + 1 =>
      have hj2 : j2 < rest.length := by
        simp at hj
        omega
      simp only [selectBestAux]
      have hbeat2 : sgt (rest.get ⟨j2, hj2⟩) s = true := by
        have h2 := hfirst 0 (by omega)
        simpa using h2
      have hmax2 : ∀ k (hk : k < rest.length),
          sgt (rest.get ⟨k, hk⟩) (rest.get ⟨j2, hj2⟩) = false := by
        intro k hk
        have h2 := hmax (k + 1) (by simp; omega)
        simpa using h2
      have hfirst2 : ∀ k (hk : k < j2),
          sgt (rest.get ⟨j2, hj2⟩) (rest.get ⟨k, Nat.lt_trans hk hj2⟩) = true := by
        intro k hk
        have h2 := hfirst (k + 1) (by omega)
        simpa using h2
      by_cases hsm : sgt s m = true
      · rw [if_pos hsm]
        rw [ih j2 hj2 s (i + 1) i hbeat2 hmax2 hfirst2]
        omega
      · rw [if_neg hsm]
        have hbeat3 : sgt (rest.get ⟨j2, hj2⟩) m = true := by
          have h2 := hbeat
          simpa using h2
        rw [ih j2 hj2 m (i + 1) best hbeat3 hmax2 hfirst2]
        omega

/-! ### Evaluating `detect_license` -/

lemma loadLoop_lengths :
    ∀ (l : List (Str × Str)) (ns ls : List Str),
      loadLoop l = .ok (ns, ls) → ns.length = ls.length := by
  intro l
  induction l with
  | nil =>
    intro ns ls h
    simp only [loadLoop, Except.ok.injEq, Prod.mk.injEq] at h
    obtain ⟨h1, h2⟩ := h
    subst h1; subst h2
    rfl
  | cons p rest ih =>
    intro ns ls h
    obtain ⟨fn, content⟩ := p
    simp only [loadLoop] at h
    rcases hp : prepare_license_file content with e | lic
    · rw [hp] at h
      exact absurd h (by simp)
    · rw [hp] at h
      rcases hr : loadLoop rest with e | ⟨ns2, ls2⟩
      · rw [hr] at h
        exact absurd h (by simp)
      · rw [hr] at h
        simp only [Except.ok.injEq, Prod.mk.injEq] at h
        obtain ⟨h1, h2⟩ := h
        subst h1; subst h2
        simp [ih ns2 ls2 hr]

lemma load_lengths (listing : List (Str × Str)) (names licenses : List Str)
    (hload : load_license_templates (some listing) = .ok (names, licenses)) :
    names.length = licenses.length := by
  have h2 : loadLoop (listing.filter (fun p => ".txt".toList.isSuffixOf p.1)) =
      .ok (names, licenses) := hload
  exact loadLoop_lengths _ names licenses h2

lemma scoreList_length (stop : Str → Bool) (idf : Str → ℤ) (licenses : List Str)
    (cleaned_doc : Str) :
    (scoreList stop idf licenses cleaned_doc).length = licenses.length := by
  simp [scoreList]

lemma mem_jointVocab_of_doc (stop : Str → Bool) (licenses : List Str)
    (cleaned_doc : Str) (t : Str) (ht : t ∈ tokenize stop cleaned_doc) :
    t ∈ jointVocab stop licenses cleaned_doc := by
  unfold jointVocab
  rw [List.mem_dedup]
  exact List.mem_flatten.mpr ⟨_, List.mem_map.mpr ⟨cleaned_doc, by simp, rfl⟩, ht⟩

lemma jointVocab_ne_nil_of_lic (stop : Str → Bool) (licenses : List Str)
    (cleaned_doc : Str) (lic : Str) (hmem : lic ∈ licenses)
    (h : tokenize stop lic ≠ []) : jointVocab stop licenses cleaned_doc ≠ [] := by
  obtain ⟨t0, ht0⟩ := List.exists_mem_of_ne_nil _ h
  intro hcon
  have h2 : t0 ∈ jointVocab stop licenses cleaned_doc := by
    unfold jointVocab
    rw [List.mem_dedup]
    exact List.mem_flatten.mpr ⟨_, List.mem_map.mpr ⟨lic, by simp [hmem], rfl⟩, ht0⟩
  rw [hcon] at h2
  simp at h2

lemma jointVocab_ne_nil_of_doc (stop : Str → Bool) (licenses : List Str)
    (cleaned_doc : Str) (h : tokenize stop cleaned_doc ≠ []) :
    jointVocab stop licenses cleaned_doc ≠ [] := by
  obtain ⟨t0, ht0⟩ := List.exists_mem_of_ne_nil _ h
  intro hcon
  have h2 := mem_jointVocab_of_doc stop licenses cleaned_doc t0 ht0
  rw [hcon] at h2
  simp at h2

lemma docVec_nonneg (idf : Str → ℤ) (toks : List Str) (hidf : ∀ t, 0 ≤ idf t) :
    ∀ t, 0 ≤ docVec idf toks t := by
  intro t
  unfold docVec
  have h : (0 : ℤ) ≤ (toks.count t : ℤ) := by exact_mod_cast Nat.zero_le _
  exact mul_nonneg h (hidf t)

lemma docVec_pos (idf : Str → ℤ) (toks : List Str) (t : Str) (hidf : 0 < idf t)
    (ht : t ∈ toks) : 0 < docVec idf toks t := by
  unfold docVec
  have h : (0 : ℤ) < (toks.count t : ℤ) := by
    exact_mod_cast List.count_pos_iff.mpr ht
  exact mul_pos h hidf

lemma detect_license_eval (listing : List (Str × Str)) (doc : Str) (stop : Str → Bool)
    (idf : Str → ℤ) (names licenses : List Str)
    (hload : load_license_templates (some listing) = .ok (names, licenses))
    (hvocab : jointVocab stop licenses (clean doc) ≠ []) :
    detect_license (some listing) doc false stop idf =
      match names.get? (selectBest (scoreList stop idf licenses (clean doc))) with
      | some nm => .ok nm
      | none => .error .indexError := by
  unfold detect_license
  rw [hload]
  show (if jointVocab stop licenses (clean doc) = [] then (.error .valueError : Except PyErr Str)
    else match names.get? (selectBest (scoreList stop idf licenses (clean doc))) with
      | some nm => .ok nm
      | none => .error .indexError) = _
  rw [if_neg hvocab]

/-- C9.  `detect_license` is deterministic: it is a pure function of the
directory listing (contents and order), the candidate document, the `cleaned`
flag and the vectorizer data; two calls on equal inputs return equal
labels. -/
theorem detect_license_deterministic (fs fs2 : Option (List (Str × Str)))
    (doc doc2 : Str) (c c2 : Bool) (stop stop2 : Str → Bool) (idf idf2 : Str → ℤ)
    (h1 : fs = fs2) (h2 : doc = doc2) (h3 : c = c2) (h4 : stop = stop2)
    (h5 : idf = idf2) :
    detect_license fs doc c stop idf = detect_license fs2 doc2 c2 stop2 idf2 := by
  subst h1; subst h2; subst h3; subst h4; subst h5
  rfl

/-- Witness for `detect_license_deterministic` at a concrete call. -/
theorem detect_license_deterministic_witness :
    detect_license (some [("a.txt".toList, "hello world".toList)]) "hello".toList false
        (fun _ => false) (fun _ => 1) =
      detect_license (some [("a.txt".toList, "hello world".toList)]) "hello".toList false
        (fun _ => false) (fun _ => 1) :=
  detect_license_deterministic _ _ _ _ _ _ _ _ _ _ rfl rfl rfl rfl rfl

/-- C10.  Whenever `detect_license` returns normally, the returned label is an
element of the `names` sequence produced by `load_license_templates` for that
call: the winning index is only ever a valid index into `names`. -/
theorem detect_license_label_in_names (fs : Option (List (Str × Str))) (doc : Str)
    (c : Bool) (stop : Str → Bool) (idf : Str → ℤ) (nm : Str)
    (h : detect_license fs doc c stop idf = .ok nm) :
    ∃ names licenses, load_license_templates fs = .ok (names, licenses) ∧ nm ∈ names := by
  unfold detect_license at h
  rcases hload : load_license_templates fs with e | ⟨names, licenses⟩
  · rw [hload] at h
    exact absurd h (by simp)
  · rw [hload] at h
    have h2 : (if jointVocab stop licenses (if c then doc else clean doc) = [] then
        (.error .valueError : Except PyErr Str)
      else match names.get? (selectBest (scoreList stop idf licenses
          (if c then doc else clean doc))) with
        | some nm => .ok nm
        | none => .error .indexError) = .ok nm := h
    refine ⟨names, licenses, rfl, ?_⟩
    by_cases hvocab : jointVocab stop licenses (if c then doc else clean doc) = []
    · rw [if_pos hvocab] at h2
      exact absurd h2 (by simp)
    · rw [if_neg hvocab] at h2
      rcases hget : names.get? (selectBest (scoreList stop idf licenses
          (if c then doc else clean doc))) with _ | nm2
      · rw [hget] at h2
        exact absurd h2 (by simp)
      · rw [hget] at h2
        simp only [Except.ok.injEq] at h2
        subst h2
        exact List.get?_mem hget

/-- Witness for `detect_license_label_in_names` at a concrete call. -/
theorem detect_license_label_in_names_witness :
    ∃ names licenses,
      load_license_templates (some [("a.txt".toList, "hello world".toList),
        ("b.txt".toList, "foo bar".toList)]) = .ok (names, licenses) ∧
        "B".toList ∈ names :=
  detect_license_label_in_names _ "foo bar".toList false (fun _ => false) (fun _ => 1)
    "B".toList (by decide)

/-- C8 (amended).  A missing or unreadable template directory makes the
classification call fail with the filesystem error raised by `listdir`
(`FileNotFoundError`); a readable directory with no `.txt` template files
makes the call fail as well, but with a generic `ValueError` (when the
candidate contributes no vocabulary term) or `IndexError` (from `names[0]` on
the empty name list) - the code has no dedicated configuration-error kind
(`detect_license_no_templates_counterexample`).  In neither case is the
condition silently ignored. -/
theorem detect_license_bad_directory :
    (∀ (doc : Str) (c : Bool) (stop : Str → Bool) (idf : Str → ℤ),
      detect_license none doc c stop idf = .error .fileNotFound) ∧
    (∀ (listing : List (Str × Str)) (doc : Str) (stop : Str → Bool) (idf : Str → ℤ),
      (∀ p ∈ listing, ".txt".toList.isSuffixOf p.1 = false) →
      (detect_license (some listing) doc false stop idf = .error .valueError ∨
        detect_license (some listing) doc false stop idf = .error .indexError)) := by
  constructor
  · intro doc c stop idf
    rfl
  · intro listing doc stop idf h
    have hfilter : listing.filter (fun p => ".txt".toList.isSuffixOf p.1) = [] := by
      rw [List.filter_eq_nil_iff]
      intro p hp
      intro hcon
      rw [h p hp] at hcon
      exact Bool.false_ne_true hcon
    have hload : load_license_templates (some listing) = .ok ([], []) := by
      show loadLoop (listing.filter (fun p => ".txt".toList.isSuffixOf p.1)) = _
      rw [hfilter]
      rfl
    by_cases hvocab : jointVocab stop [] (clean doc) = []
    · left
      unfold detect_license
      rw [hload]
      show (if jointVocab stop [] (clean doc) = [] then (.error .valueError : Except PyErr Str)
        else match ([] : List Str).get? (selectBest (scoreList stop idf [] (clean doc))) with
          | some nm => .ok nm
          | none => .error .indexError) = _
      rw [if_pos hvocab]
    · right
      rw [detect_license_eval listing doc stop idf [] [] hload hvocab]
      rfl

/-- C8 counterexample to the claim as stated: a readable directory with no
`.txt` files does make `detect_license` fail, but with a plain `IndexError`
from `names[0]` - there is no distinct `ConfigurationError` kind in the
code. -/
theorem detect_license_no_templates_counterexample :
    detect_license (some [("README.md".toList, "hello".toList)]) "hello world".toList
      false (fun _ => false) (fun _ => 1) = .error .indexError := by
  decide

/-- Witness for `detect_license_bad_directory` at concrete calls. -/
theorem detect_license_bad_directory_witness :
    detect_license none "x".toList false (fun _ => false) (fun _ => 1) =
        .error .fileNotFound ∧
      (detect_license (some [("README.md".toList, "hello".toList)]) "hello world".toList
          false (fun _ => false) (fun _ => 1) = .error .valueError ∨
        detect_license (some [("README.md".toList, "hello".toList)]) "hello world".toList
          false (fun _ => false) (fun _ => 1) = .error .indexError) :=
  ⟨detect_license_bad_directory.1 _ _ _ _,
   detect_license_bad_directory.2 _ _ _ _ (by decide)⟩

/-- C1 (amended).  When the candidate normalizes to the empty token string and
at least one template contributes a vocabulary token, `detect_license` on a
non-empty corpus returns normally (no exception) with the FIRST template's
label: the candidate row is zero, so every cosine similarity is the `nan` from
`0.0 / 0.0`, `nan > max_similarity` is always false, and the winning index
stays at its initialization `0`.  The vocabulary proviso is forced: if no
document contributes a token, `fit_transform` raises `ValueError`
(`detect_license_empty_candidate_counterexample`). -/
theorem detect_license_empty_candidate (listing : List (Str × Str)) (doc : Str)
    (stop : Str → Bool) (idf : Str → ℤ) (names licenses : List Str)
    (hload : load_license_templates (some listing) = .ok (names, licenses))
    (hdoc : tokenize stop (clean doc) = [])
    (hvocab : jointVocab stop licenses (clean doc) ≠ [])
    (hnames : names ≠ []) :
    detect_license (some listing) doc false stop idf = .ok names.headI := by
  rw [detect_license_eval listing doc stop idf names licenses hload hvocab]
  have hscores : ∀ s ∈ scoreList stop idf licenses (clean doc), s = none := by
    intro s hs
    unfold scoreList at hs
    rw [List.mem_map] at hs
    obtain ⟨lic, _, rfl⟩ := hs
    apply cosine_left_zero
    intro t _
    rw [hdoc]
    simp [docVec]
  have hsel : selectBest (scoreList stop idf licenses (clean doc)) = 0 := by
    unfold selectBest
    apply selectBestAux_no_update
    intro s hs
    rw [hscores s hs]
    rfl
  rw [hsel]
  rcases names with _ | ⟨n, rest⟩
  · exact absurd rfl hnames
  · rfl

/-- C1 counterexample to the claim as stated: the corpus `{a.txt : "a"}` is
non-empty and the candidate is empty, yet `detect_license` raises `ValueError`
rather than returning a label - the single template text `"a"` yields no token
(the vectorizer only keeps tokens of length at least two), so the joint
vocabulary is empty and `fit_transform` raises. -/
theorem detect_license_empty_candidate_counterexample :
    detect_license (some [("a.txt".toList, "a".toList)]) [] false
      (fun _ => false) (fun _ => 1) = .error .valueError := by
  decide

/-- Witness for `detect_license_empty_candidate`: empty candidate against the
corpus `{a.txt : "hello world"}` returns the first (only) label `"A"`. -/
theorem detect_license_empty_candidate_witness :
    detect_license (some [("a.txt".toList, "hello world".toList)]) [] false
      (fun _ => false) (fun _ => 1) = .ok ("A".toList) :=
  detect_license_empty_candidate [("a.txt".toList, "hello world".toList)] []
    (fun _ => false) (fun _ => 1) ["A".toList] [clean "hello world".toList]
    (by decide) (by decide) (by decide) (by decide)

lemma scoreList_good (stop : Str → Bool) (idf : Str → ℤ) (licenses : List Str)
    (cleaned_doc : Str) (hidf : ∀ t, 0 ≤ idf t) (s : Score)
    (hs : s ∈ scoreList stop idf licenses cleaned_doc) (hnn : s ≠ none) :
    ∃ a b, s = some (a, b) ∧ 0 ≤ a ∧ 0 < b := by
  unfold scoreList at hs
  rw [List.mem_map] at hs
  obtain ⟨lic, _, rfl⟩ := hs
  exact cosine_ne_none_good _ _ _ (docVec_nonneg idf _ hidf) (docVec_nonneg idf _ hidf) hnn

/-- C4.  Ties are broken by first occurrence.  If the `j`-th similarity score
is maximal (no score compares strictly greater) and every earlier score
compares strictly smaller - in particular when `j` is the lowest of two or
more indices attaining the maximal similarity - then `detect_license` returns
the `j`-th template's name: the running maximum is updated only on a strict
`>` comparison, so a later equal-scoring template never replaces an earlier
one. -/
theorem detect_license_tie_break (listing : List (Str × Str)) (doc : Str)
    (stop : Str → Bool) (idf : Str → ℤ) (names licenses : List Str) (j : Nat)
    (hload : load_license_templates (some listing) = .ok (names, licenses))
    (hidf : ∀ t, 0 ≤ idf t)
    (hvocab : jointVocab stop licenses (clean doc) ≠ [])
    (hj : j < (scoreList stop idf licenses (clean doc)).length)
    (hnn : ∀ s ∈ scoreList stop idf licenses (clean doc), s ≠ none)
    (hmax : ∀ k (hk : k < (scoreList stop idf licenses (clean doc)).length),
      sgt ((scoreList stop idf licenses (clean doc)).get ⟨k, hk⟩)
        ((scoreList stop idf licenses (clean doc)).get ⟨j, hj⟩) = false)
    (hfirst : ∀ k (hk : k < j),
      sgt ((scoreList stop idf licenses (clean doc)).get ⟨j, hj⟩)
        ((scoreList stop idf licenses (clean doc)).get ⟨k, Nat.lt_trans hk hj⟩) = true) :
    ∃ nm, names.get? j = some nm ∧
      detect_license (some listing) doc false stop idf = .ok nm := by
  have hlen1 := scoreList_length stop idf licenses (clean doc)
  have hlen2 := load_lengths listing names licenses hload
  have hj2 : j < names.length := by omega
  have hmem := List.get_mem (scoreList stop idf licenses (clean doc)) j hj
  obtain ⟨a, b, heq, ha, hb⟩ :=
    scoreList_good stop idf licenses (clean doc) hidf _ hmem (hnn _ hmem)
  have hbeat : sgt ((scoreList stop idf licenses (clean doc)).get ⟨j, hj⟩)
      scoreInit = true := by
    rw [heq]
    exact sgt_scoreInit ha
  have hsel : selectBest (scoreList stop idf licenses (clean doc)) = j := by
    unfold selectBest
    rw [selectBestAux_argmax _ j hj scoreInit 0 0 hbeat hmax hfirst]
    omega
  refine ⟨names.get ⟨j, hj2⟩, List.get?_eq_get hj2, ?_⟩
  rw [detect_license_eval listing doc stop idf names licenses hload hvocab, hsel,
    List.get?_eq_get hj2]

/-- Witness for `detect_license_tie_break`: two identical templates tie at the
maximal similarity against the identical candidate; index `0` wins. -/
theorem detect_license_tie_break_witness :
    ∃ nm, (["T".toList, "U".toList] : List Str).get? 0 = some nm ∧
      detect_license (some [("t.txt".toList, "hello hello world".toList),
          ("u.txt".toList, "hello hello world".toList)]) "hello hello world".toList
        false (fun _ => false) (fun _ => 1) = .ok nm :=
  detect_license_tie_break
    [("t.txt".toList, "hello hello world".toList),
     ("u.txt".toList, "hello hello world".toList)]
    "hello hello world".toList (fun _ => false) (fun _ => 1)
    ["T".toList, "U".toList]
    [clean "hello hello world".toList, clean "hello hello world".toList] 0
    (by decide) (fun _ => zero_le_one) (by decide) (by decide) (by decide) (by decide)
    (by decide)

lemma scoreList_get_eq (stop : Str → Bool) (idf : Str → ℤ) (licenses : List Str)
    (cleaned_doc : Str) (k : Nat) (hk : k < licenses.length)
    (hk2 : k < (scoreList stop idf licenses cleaned_doc).length) :
    (scoreList stop idf licenses cleaned_doc).get ⟨k, hk2⟩ =
      cosine_similarity (jointVocab stop licenses cleaned_doc)
        (docVec idf (tokenize stop cleaned_doc))
        (docVec idf (tokenize stop (licenses.get ⟨k, hk⟩))) := by
  simp [scoreList, List.get_eq_getElem, List.getElem_map]

/-- C5 (amended).  If the candidate text is byte-identical to the raw
(pre-normalization) content of the `i`-th `.txt` template file, the template's
normalized text contributes at least one vocabulary token, and every earlier
template's similarity compares strictly smaller than the `i`-th one, then
`detect_license` returns the `i`-th template's label.  The earlier-template
proviso is forced by the strict `>` tie-break: an earlier template can attain
the same (maximal) similarity - for instance a duplicate template - and then
the earlier label is returned instead
(`detect_license_exact_match_counterexample`). -/
theorem detect_license_exact_match (listing : List (Str × Str)) (stop : Str → Bool)
    (idf : Str → ℤ) (names licenses : List Str) (i : Nat) (pr : Str × Str)
    (hidf : ∀ t, 0 < idf t)
    (hfiles : ∀ p ∈ listing, ".txt".toList.isSuffixOf p.1 = true → p.2 ≠ [])
    (hload : load_license_templates (some listing) = .ok (names, licenses))
    (hi : (listing.filter (fun p => ".txt".toList.isSuffixOf p.1)).get? i = some pr)
    (hself : tokenize stop (clean pr.2) ≠ [])
    (hilen : i < (scoreList stop idf licenses (clean pr.2)).length)
    (hfirst : ∀ k (hk : k < i),
      sgt ((scoreList stop idf licenses (clean pr.2)).get ⟨i, hilen⟩)
        ((scoreList stop idf licenses (clean pr.2)).get
          ⟨k, Nat.lt_trans hk hilen⟩) = true) :
    ∃ nm, names.get? i = some nm ∧
      detect_license (some listing) pr.2 false stop idf = .ok nm := by
  have hspec := (load_license_templates_spec listing hfiles).1
  rw [hload] at hspec
  simp only [Except.ok.injEq, Prod.mk.injEq] at hspec
  obtain ⟨hn, hl⟩ := hspec
  have hlen1 := scoreList_length stop idf licenses (clean pr.2)
  have hilen2 : i < licenses.length := by omega
  have hlicget : licenses.get ⟨i, hilen2⟩ = clean pr.2 := by
    have h1 : licenses.get? i = some (clean pr.2) := by
      rw [hl, List.get?_map, hi]
      rfl
    rw [List.get?_eq_get hilen2] at h1
    simpa using h1
  have hvocab : jointVocab stop licenses (clean pr.2) ≠ [] :=
    jointVocab_ne_nil_of_doc stop licenses (clean pr.2) hself
  obtain ⟨t0, ht0⟩ := List.exists_mem_of_ne_nil _ hself
  have ht0v : t0 ∈ jointVocab stop licenses (clean pr.2) :=
    mem_jointVocab_of_doc stop licenses (clean pr.2) t0 ht0
  have hvnn : ∀ t, 0 ≤ docVec idf (tokenize stop (clean pr.2)) t :=
    docVec_nonneg idf _ (fun t => (hidf t).le)
  have hdvv : 0 < dot (jointVocab stop licenses (clean pr.2))
      (docVec idf (tokenize stop (clean pr.2)))
      (docVec idf (tokenize stop (clean pr.2))) :=
    dot_self_pos _ _ t0 ht0v hvnn (docVec_pos idf _ t0 (hidf t0) ht0)
  have hsi : (scoreList stop idf licenses (clean pr.2)).get ⟨i, hilen⟩ =
      some (dot (jointVocab stop licenses (clean pr.2))
          (docVec idf (tokenize stop (clean pr.2)))
          (docVec idf (tokenize stop (clean pr.2))),
        dot (jointVocab stop licenses (clean pr.2))
            (docVec idf (tokenize stop (clean pr.2)))
            (docVec idf (tokenize stop (clean pr.2))) *
          dot (jointVocab stop licenses (clean pr.2))
            (docVec idf (tokenize stop (clean pr.2)))
            (docVec idf (tokenize stop (clean pr.2)))) := by
    rw [scoreList_get_eq stop idf licenses (clean pr.2) i hilen2 hilen, hlicget]
    exact cosine_self_eq _ _ hdvv
  have hmax : ∀ k (hk : k < (scoreList stop idf licenses (clean pr.2)).length),
      sgt ((scoreList stop idf licenses (clean pr.2)).get ⟨k, hk⟩)
        ((scoreList stop idf licenses (clean pr.2)).get ⟨i, hilen⟩) = false := by
    intro k hk
    have hk2 : k < licenses.length := by omega
    rw [hsi, scoreList_get_eq stop idf licenses (clean pr.2) k hk2 hk]
    exact sgt_cosine_le_self _ _ _ hdvv
  have hbeat : sgt ((scoreList stop idf licenses (clean pr.2)).get ⟨i, hilen⟩)
      scoreInit = true := by
    rw [hsi]
    exact sgt_scoreInit hdvv.le
  have hsel : selectBest (scoreList stop idf licenses (clean pr.2)) = i := by
    unfold selectBest
    rw [selectBestAux_argmax _ i hilen scoreInit 0 0 hbeat hmax hfirst]
    omega
  have hnmslen : i < names.length := by
    rw [load_lengths listing names licenses hload]
    exact hilen2
  refine ⟨names.get ⟨i, hnmslen⟩, List.get?_eq_get hnmslen, ?_⟩
  rw [detect_license_eval listing pr.2 stop idf names licenses hload hvocab, hsel,
    List.get?_eq_get hnmslen]

/-- C5 counterexample to the claim as stated: the corpus holds two
byte-identical templates; the candidate is byte-identical to the raw text of
template index `1` (`u.txt`), yet `detect_license` returns the label of the
earlier duplicate (`"T"`, index `0`), not `"U"`. -/
theorem detect_license_exact_match_counterexample :
    detect_license (some [("t.txt".toList, "hello hello world".toList),
        ("u.txt".toList, "hello hello world".toList)]) "hello hello world".toList
      false (fun _ => false) (fun _ => 1) = .ok "T".toList ∧
      ("T".toList : Str) ≠ "U".toList := by
  decide

/-- Witness for `detect_license_exact_match`: candidate byte-identical to the
second template (`b.txt`, raw text `"foo bar"`, strictly less similar earlier
template) yields the label `"B"`. -/
theorem detect_license_exact_match_witness :
    ∃ nm, (["A".toList, "B".toList] : List Str).get? 1 = some nm ∧
      detect_license (some [("a.txt".toList, "hello world".toList),
          ("b.txt".toList, "foo bar".toList)]) "foo bar".toList false
        (fun _ => false) (fun _ => 1) = .ok nm :=
  detect_license_exact_match
    [("a.txt".toList, "hello world".toList), ("b.txt".toList, "foo bar".toList)]
    (fun _ => false) (fun _ => 1) ["A".toList, "B".toList]
    [clean "hello world".toList, clean "foo bar".toList] 1
    ("b.txt".toList, "foo bar".toList)
    (fun _ => zero_lt_one) (by decide) (by decide) (by decide) (by decide) (by decide)
    (by decide)

/-! ### Idempotence of `clean` on single-spaced input -/

lemma map_eq_self_of_fixed {f : Char → Char} :
    ∀ (l : Str), (∀ c ∈ l, f c = c) → l.map f = l := by
  intro l h
  calc l.map f = l.map id := List.map_congr_left h
    _ = l := l.map_id

lemma hasDouble_cons_cons (c1 c2 : Char) (rest : Str) :
    hasDouble (c1 :: c2 :: rest) = ((c1 == ' ' && c2 == ' ') || hasDouble (c2 :: rest)) :=
  rfl

lemma collapse_of_noDouble : ∀ (l : Str), hasDouble l = false → collapseDoubleSpace l = l := by
  have H : ∀ (n : Nat) (l : Str), l.length ≤ n → hasDouble l = false →
      collapseDoubleSpace l = l := by
    intro n
    induction n with
    | zero =>
      intro l hl _
      have hnil : l = [] := List.eq_nil_of_length_eq_zero (by omega)
      subst hnil
      rfl
    | succ n ih =>
      intro l hl hnd
      rcases l with _ | ⟨c1, _ | ⟨c2, rest⟩⟩
      · rfl
      · rfl
      · rw [hasDouble_cons_cons, Bool.or_eq_false_iff] at hnd
        simp only [collapseDoubleSpace]
        rw [if_neg (by
          rintro ⟨h1, h2⟩
          subst h1; subst h2
          simp at hnd)]
        rw [ih (c2 :: rest) (by simp at hl ⊢; omega) hnd.2]
  exact fun l => H l.length l le_rfl

lemma beq_space_pyLowerChar (c : Char) : (pyLowerChar c == ' ') = (c == ' ') := by
  by_cases hc : c = ' '
  · subst hc
    rw [pyLowerChar_eq_self _ (by decide)]
  · have h2 : pyLowerChar c ≠ ' ' := fun h => hc ((pyLowerChar_eq_space_iff c).mp h)
    simp [hc, h2]

lemma hasDouble_map_pyLower : ∀ (l : Str), hasDouble (l.map pyLowerChar) = hasDouble l := by
  have H : ∀ (n : Nat) (l : Str), l.length ≤ n →
      hasDouble (l.map pyLowerChar) = hasDouble l := by
    intro n
    induction n with
    | zero =>
      intro l hl
      have hnil : l = [] := List.eq_nil_of_length_eq_zero (by omega)
      subst hnil
      rfl
    | succ n ih =>
      intro l hl
      rcases l with _ | ⟨c1, _ | ⟨c2, rest⟩⟩
      · rfl
      · rfl
      · simp only [List.map_cons]
        rw [hasDouble_cons_cons, hasDouble_cons_cons, beq_space_pyLowerChar,
          beq_space_pyLowerChar]
        have h2 : (pyLowerChar c2 :: rest.map pyLowerChar) = (c2 :: rest).map pyLowerChar :=
          rfl
        rw [h2, ih (c2 :: rest) (by simp at hl ⊢; omega)]
  exact fun l => H l.length l le_rfl

lemma splitSp_tokens_ne_nil :
    ∀ (l : Str), l ≠ [] → hasDouble l = false → l.head? ≠ some ' ' →
      l.getLast? ≠ some ' ' → ∀ t ∈ splitSp l, t ≠ [] := by
  have H : ∀ (n : Nat) (l : Str), l.length ≤ n → l ≠ [] → hasDouble l = false →
      l.head? ≠ some ' ' → l.getLast? ≠ some ' ' → ∀ t ∈ splitSp l, t ≠ [] := by
    intro n
    induction n with
    | zero =>
      intro l hl hne
      exact absurd (List.eq_nil_of_length_eq_zero (by omega)) hne
    | succ n ih =>
      intro l hl hne hnd hhead hlast t ht
      rcases l with _ | ⟨c, rest⟩
      · exact absurd rfl hne
      · have hc : c ≠ ' ' := by
          intro h
          subst h
          exact hhead rfl
        simp only [splitSp] at ht
        rw [if_neg hc] at ht
        rcases rest with _ | ⟨d, rest2⟩
        · simp only [splitSp] at ht
          rcases List.mem_cons.mp ht with rfl | h2
          · simp
          · simp at h2
        · rcases hsp : splitSp (d :: rest2) with _ | ⟨t1, ts⟩
          · exact absurd hsp (splitSp_ne_nil _)
          · rw [hsp] at ht
            rcases List.mem_cons.mp ht with rfl | h2
            · simp
            · by_cases hd : d = ' '
              · subst hd
                rcases rest2 with _ | ⟨e, rest3⟩
                · exact absurd (by rfl) hlast
                · have hnd2 : hasDouble (e :: rest3) = false := by
                    rw [hasDouble_cons_cons, Bool.or_eq_false_iff] at hnd
                    rw [hasDouble_cons_cons, Bool.or_eq_false_iff] at hnd
                    exact hnd.2.2
                  have hhead2 : (e :: rest3).head? ≠ some ' ' := by
                    rw [hasDouble_cons_cons] at hnd
                    rw [hasDouble_cons_cons, Bool.or_eq_false_iff] at hnd
                    intro hcon
                    simp only [List.head?] at hcon
                    rw [Option.some.injEq] at hcon
                    subst hcon
                    simp at hnd
                  have hlast2 : (e :: rest3).getLast? ≠ some ' ' := by
                    rw [List.getLast?_cons_cons, List.getLast?_cons_cons] at hlast
                    exact hlast
                  have hrec := ih (e :: rest3) (by simp at hl ⊢; omega) (by simp)
                    hnd2 hhead2 hlast2
                  have hsp2 : splitSp (' ' :: e :: rest3) = [] :: splitSp (e :: rest3) := rfl
                  rw [hsp2] at hsp
                  rw [List.cons.injEq] at hsp
                  obtain ⟨_, hts⟩ := hsp
                  subst hts
                  exact hrec t h2
              · have hnd2 : hasDouble (d :: rest2) = false := by
                  rw [hasDouble_cons_cons, Bool.or_eq_false_iff] at hnd
                  exact hnd.2
                have hlast2 : (d :: rest2).getLast? ≠ some ' ' := by
                  rw [List.getLast?_cons_cons] at hlast
                  exact hlast
                have hrec := ih (d :: rest2) (by simp at hl ⊢; omega) (by simp)
                  hnd2 (by simpa using hd) hlast2
                exact hrec t (by rw [hsp]; exact List.mem_cons.mpr (Or.inr h2))
  exact fun l => H l.length l le_rfl

lemma splitSp_no_space : ∀ (t : Str), (∀ c ∈ t, c ≠ ' ') → splitSp t = [t] := by
  intro t
  induction t with
  | nil => intro _; rfl
  | cons c rest ih =>
    intro h
    have hc : c ≠ ' ' := h c (by simp)
    simp only [splitSp]
    rw [if_neg hc, ih (fun d hd => h d (by simp [hd]))]

lemma splitSp_append_space :
    ∀ (t z : Str), (∀ c ∈ t, c ≠ ' ') → splitSp (t ++ ' ' :: z) = t :: splitSp z := by
  intro t
  induction t with
  | nil =>
    intro z _
    show splitSp (' ' :: z) = [] :: splitSp z
    rfl
  | cons c rest ih =>
    intro z h
    have hc : c ≠ ' ' := h c (by simp)
    show splitSp (c :: (rest ++ ' ' :: z)) = (c :: rest) :: splitSp z
    simp only [splitSp]
    rw [if_neg hc, ih z (fun d hd => h d (by simp [hd]))]

lemma splitSp_joinTokens :
    ∀ (ts : List Str), (∀ t ∈ ts, ∀ c ∈ t, c ≠ ' ') → ts ≠ [] →
      splitSp (joinTokens ts) = ts := by
  intro ts
  induction ts with
  | nil => intro _ hne; exact absurd rfl hne
  | cons t rest ih =>
    intro h _
    rcases rest with _ | ⟨t2, rest2⟩
    · show splitSp t = [t]
      exact splitSp_no_space t (h t (by simp))
    · show splitSp (t ++ ' ' :: joinTokens (t2 :: rest2)) = t :: t2 :: rest2
      rw [splitSp_append_space t _ (h t (by simp)),
        ih (fun u hu c hc => h u (by simp at hu ⊢; tauto) c hc) (by simp)]

lemma joinTokens_chars :
    ∀ (ts : List Str) (c : Char), c ∈ joinTokens ts → c = ' ' ∨ ∃ t ∈ ts, c ∈ t := by
  intro ts
  induction ts with
  | nil => intro c hc; simp [joinTokens] at hc
  | cons t rest ih =>
    intro c hc
    rcases rest with _ | ⟨t2, rest2⟩
    · exact Or.inr ⟨t, by simp, hc⟩
    · have hc2 : c ∈ t ++ ' ' :: joinTokens (t2 :: rest2) := hc
      rcases List.mem_append.mp hc2 with h | h
      · exact Or.inr ⟨t, by simp, h⟩
      · rcases List.mem_cons.mp h with rfl | h2
        · exact Or.inl rfl
        · rcases ih c h2 with h3 | ⟨u, hu, hcu⟩
          · exact Or.inl h3
          · exact Or.inr ⟨u, by simp at hu ⊢; tauto, hcu⟩

lemma joinTokens_ne_nil (t : Str) (ts : List Str) (ht : t ≠ []) :
    joinTokens (t :: ts) ≠ [] := by
  rcases ts with _ | ⟨t2, rest⟩
  · exact ht
  · show t ++ ' ' :: joinTokens (t2 :: rest) ≠ []
    exact append_ne_nil_right (by simp)

lemma joinTokens_head? (t : Str) (ts : List Str) (ht : t ≠ []) :
    (joinTokens (t :: ts)).head? = t.head? := by
  rcases ts with _ | ⟨t2, rest⟩
  · rfl
  · show (t ++ ' ' :: joinTokens (t2 :: rest)).head? = t.head?
    rcases t with _ | ⟨c, trest⟩
    · exact absurd rfl ht
    · rfl

lemma getLast?_cons_of_ne_nil (a : Char) (l : Str) (h : l ≠ []) :
    (a :: l).getLast? = l.getLast? := by
  rcases l with _ | ⟨b, rest⟩
  · exact absurd rfl h
  · exact List.getLast?_cons_cons

lemma joinTokens_getLast? :
    ∀ (ts : List Str) (t0 : Str), (∀ u ∈ t0 :: ts, u ≠ []) →
      ∃ tl ∈ t0 :: ts, (joinTokens (t0 :: ts)).getLast? = tl.getLast? := by
  intro ts
  induction ts with
  | nil => intro t0 _; exact ⟨t0, by simp, rfl⟩
  | cons t1 rest ih =>
    intro t0 h
    obtain ⟨tl, htl, heq⟩ := ih t1 (fun u hu => h u (by simp at hu ⊢; tauto))
    refine ⟨tl, by simp at htl ⊢; tauto, ?_⟩
    show (t0 ++ ' ' :: joinTokens (t1 :: rest)).getLast? = tl.getLast?
    rw [List.getLast?_append_of_ne_nil _ (by simp),
      getLast?_cons_of_ne_nil _ _ (joinTokens_ne_nil t1 rest (h t1 (by simp))), heq]

lemma hasDouble_no_space : ∀ (t : Str), (∀ c ∈ t, c ≠ ' ') → hasDouble t = false := by
  intro t
  induction t with
  | nil => intro _; rfl
  | cons c rest ih =>
    intro h
    rcases rest with _ | ⟨d, rest2⟩
    · rfl
    · rw [hasDouble_cons_cons, Bool.or_eq_false_iff]
      constructor
      · have hc : c ≠ ' ' := h c (by simp)
        simp [hc]
      · exact ih (fun e he => h e (by simp at he ⊢; tauto))

lemma hasDouble_append_space_join :
    ∀ (t J : Str), (∀ c ∈ t, c ≠ ' ') → J.head? ≠ some ' ' → hasDouble J = false →
      hasDouble (t ++ ' ' :: J) = false := by
  intro t
  induction t with
  | nil =>
    intro J _ hhead hJ
    show hasDouble (' ' :: J) = false
    rcases J with _ | ⟨d, rest⟩
    · rfl
    · rw [hasDouble_cons_cons, Bool.or_eq_false_iff]
      refine ⟨?_, hJ⟩
      have hd : d ≠ ' ' := by
        intro h
        subst h
        exact hhead rfl
      simp [hd]
  | cons c trest ih =>
    intro J h hhead hJ
    show hasDouble (c :: (trest ++ ' ' :: J)) = false
    have hrec := ih J (fun d hd => h d (by simp [hd])) hhead hJ
    rcases hfirst2 : trest ++ ' ' :: J with _ | ⟨d, rest2⟩
    · exact absurd hfirst2 (append_ne_nil_right (by simp))
    · rw [hasDouble_cons_cons, Bool.or_eq_false_iff]
      constructor
      · have hc : c ≠ ' ' := h c (by simp)
        simp [hc]
      · rw [← hfirst2]
        exact hrec

lemma hasDouble_joinTokens :
    ∀ (ts : List Str), (∀ t ∈ ts, t ≠ [] ∧ ∀ c ∈ t, c ≠ ' ') →
      hasDouble (joinTokens ts) = false := by
  intro ts
  induction ts with
  | nil => intro _; rfl
  | cons t rest ih
  =>
    intro h
    rcases rest with _ | ⟨t2, rest2⟩
    · exact hasDouble_no_space t (h t (by simp)).2
    · show hasDouble (t ++ ' ' :: joinTokens (t2 :: rest2)) = false
      apply hasDouble_append_space_join t _ (h t (by simp)).2
      · rw [joinTokens_head? t2 rest2 (h t2 (by simp)).1]
        intro hcon
        have h2 := List.mem_of_mem_head? (Option.mem_def.mpr hcon)
        exact (h t2 (by simp)).2 ' ' h2 rfl
      · exact ih (fun u hu => h u (by simp at hu ⊢; tauto))

lemma foldl_join_eq :
    ∀ (ts : List Str) (t0 : Str) (acc : Str),
      (t0 :: ts).foldl (fun acc token => acc ++ ' ' :: Porter.stem token) acc =
        acc ++ ' ' :: joinTokens ((t0 :: ts).map Porter.stem) := by
  intro ts
  induction ts with
  | nil => intro t0 acc; rfl
  | cons t1 rest ih =>
    intro t0 acc
    show (t1 :: rest).foldl (fun acc token => acc ++ ' ' :: Porter.stem token)
        (acc ++ ' ' :: Porter.stem t0) = _
    rw [ih t1 (acc ++ ' ' :: Porter.stem t0)]
    show (acc ++ ' ' :: Porter.stem t0) ++ ' ' :: joinTokens ((t1 :: rest).map Porter.stem) =
      acc ++ ' ' :: joinTokens (Porter.stem t0 :: (t1 :: rest).map Porter.stem)
    rw [show joinTokens (Porter.stem t0 :: (t1 :: rest).map Porter.stem) =
      Porter.stem t0 ++ ' ' :: joinTokens ((t1 :: rest).map Porter.stem) from rfl]
    simp

lemma pyStrip_sandwich (J : Str) (hne : J ≠ [])
    (hhead : ∀ c, J.head? = some c → isPySpace c = false)
    (hlast : ∀ c, J.getLast? = some c → isPySpace c = false) : pyStrip (' ' :: J) = J := by
  unfold pyStrip
  rw [List.dropWhile_cons]
  rw [if_pos (by decide)]
  have h1 : J.dropWhile isPySpace = J := by
    rcases J with _ | ⟨c, rest⟩
    · rfl
    · rw [List.dropWhile_cons, if_neg (by simp [hhead c rfl])]
  rw [h1]
  have h2 : J.reverse.dropWhile isPySpace = J.reverse := by
    rcases hrev : J.reverse with _ | ⟨c, rest⟩
    · rfl
    · rw [List.dropWhile_cons, if_neg ?_]
      have hc : J.getLast? = some c := by
        rw [← List.head?_reverse, hrev]
        rfl
      simp [hlast c hc]
  rw [h2, List.reverse_reverse]

lemma isPySpace_of_isLowerWord (c : Char) (h : isLowerWord c = true) :
    isPySpace c = false := by
  simp only [isLowerWord, isLowerAlpha, Bool.or_eq_true, Bool.and_eq_true,
    decide_eq_true_eq, beq_iff_eq] at h
  simp only [isPySpace, Bool.or_eq_false_iff, beq_eq_false_iff_ne, ne_eq]
  refine ⟨⟨⟨⟨⟨?_, ?_⟩, ?_⟩, ?_⟩, ?_⟩, ?_⟩
  · intro heq; subst heq; revert h; decide
  · intro heq; subst heq; revert h; decide
  · intro heq; subst heq; revert h; decide
  · intro heq; subst heq; revert h; decide
  · omega
  · omega

lemma isWordChar_of_isLowerWord (c : Char) (h : isLowerWord c = true) :
    isWordChar c = true := by
  simp only [isLowerWord, isLowerAlpha, Bool.or_eq_true, Bool.and_eq_true,
    decide_eq_true_eq, beq_iff_eq] at h
  simp only [isWordChar, Bool.or_eq_true, Bool.and_eq_true, decide_eq_true_eq, beq_iff_eq]
  omega

lemma isLowerWord_ne_space (c : Char) (h : isLowerWord c = true) : c ≠ ' ' := by
  intro hcon
  subst hcon
  exact absurd h (by decide)

/-- On input without double spaces, not starting or ending with a space, and
made of word characters and spaces, the tokens of the lower-cased string are
non-empty strings of lower-case word characters. -/
lemma splitSp_lower_facts (x : Str) (hne : x ≠ [])
    (hchars : ∀ c ∈ x, isWordChar c = true ∨ c = ' ')
    (hnd : hasDouble x = false)
    (hhead : x.head? ≠ some ' ')
    (hlast : x.getLast? ≠ some ' ') :
    ∀ t ∈ splitSp (x.map pyLowerChar), t ≠ [] ∧ ∀ c ∈ t, isLowerWord c = true := by
  have hyne : x.map pyLowerChar ≠ [] := by
    intro hcon
    exact hne (List.map_eq_nil_iff.mp hcon)
  have hynd : hasDouble (x.map pyLowerChar) = false := by
    rw [hasDouble_map_pyLower]
    exact hnd
  have hyhead : (x.map pyLowerChar).head? ≠ some ' ' := by
    rcases x with _ | ⟨a, b⟩
    · exact absurd rfl hne
    · intro hcon
      have h2 : pyLowerChar a = ' ' := Option.some.inj hcon
      rw [pyLowerChar_eq_space_iff] at h2
      exact hhead (congrArg some h2)
  have hylast : (x.map pyLowerChar).getLast? ≠ some ' ' := by
    intro hcon
    rw [← List.head?_reverse, ← List.map_reverse] at hcon
    rcases hxr : x.reverse with _ | ⟨a, b⟩
    · rw [hxr] at hcon
      exact Option.noConfusion hcon
    · rw [hxr] at hcon
      have h2 : pyLowerChar a = ' ' := Option.some.inj hcon
      rw [pyLowerChar_eq_space_iff] at h2
      apply hlast
      rw [← List.head?_reverse, hxr]
      exact congrArg some h2
  intro t ht
  refine ⟨splitSp_tokens_ne_nil _ hyne hynd hyhead hylast t ht, ?_⟩
  intro c hc
  obtain ⟨hmem, hnsp⟩ := splitSp_chars _ t ht c hc
  obtain ⟨d, hd, hdc⟩ := List.mem_map.mp hmem
  rcases hchars d hd with h | h
  · rw [← hdc]
    exact isLowerWord_pyLowerChar d h
  · exfalso
    apply hnsp
    rw [← hdc, h]
    exact (pyLowerChar_eq_space_iff ' ').mpr rfl

/-- Stemming non-empty all-lower-word tokens gives non-empty all-lower-word
tokens. -/
lemma stemmed_tokens_facts (ts : List Str)
    (htokne : ∀ t ∈ ts, t ≠ [])
    (htokchars : ∀ t ∈ ts, ∀ c ∈ t, isLowerWord c = true) :
    ∀ u ∈ ts.map Porter.stem, u ≠ [] ∧ ∀ c ∈ u, isLowerWord c = true := by
  intro u hu
  obtain ⟨t, ht, rfl⟩ := List.mem_map.mp hu
  exact ⟨Porter.stem_ne_nil t (htokne t ht), Porter.stem_isLowerWord t (htokchars t ht)⟩

/-- Shape facts about the space-join of non-empty all-lower-word tokens. -/
lemma joinTokens_facts (us : List Str) (u0 : Str) (us' : List Str)
    (hus : us = u0 :: us')
    (h : ∀ u ∈ us, u ≠ [] ∧ ∀ c ∈ u, isLowerWord c = true) :
    joinTokens us ≠ [] ∧
    (∀ c, (joinTokens us).head? = some c → isLowerWord c = true) ∧
    (∀ c, (joinTokens us).getLast? = some c → isLowerWord c = true) ∧
    hasDouble (joinTokens us) = false ∧
    (∀ c ∈ joinTokens us, isLowerWord c = true ∨ c = ' ') := by
  subst hus
  refine ⟨?_, ?_, ?_, ?_, ?_⟩
  · exact joinTokens_ne_nil u0 us' (h u0 (by simp)).1
  · intro c hc
    rw [joinTokens_head? u0 us' (h u0 (by simp)).1] at hc
    exact (h u0 (by simp)).2 c (List.mem_of_mem_head? (Option.mem_def.mpr hc))
  · intro c hc
    obtain ⟨tl, htl, heq⟩ := joinTokens_getLast? us' u0 (fun u hu => (h u hu).1)
    rw [heq] at hc
    exact (h tl htl).2 c (mem_of_getLast?_eq_some hc)
  · exact hasDouble_joinTokens _
      (fun u hu => ⟨(h u hu).1, fun c hc => isLowerWord_ne_space c ((h u hu).2 c hc)⟩)
  · intro c hc
    rcases joinTokens_chars _ c hc with h1 | ⟨t, ht, hct⟩
    · right
      exact h1
    · left
      exact (h t ht).2 c hct

/-- On input without double spaces, not starting or ending with a space, and
made of word characters and spaces, `clean` is exactly: lower-case, split on
spaces, stem each token, rejoin with single spaces. -/
lemma clean_eq_joinTokens (x : Str) (hne : x ≠ [])
    (hchars : ∀ c ∈ x, isWordChar c = true ∨ c = ' ')
    (hnd : hasDouble x = false)
    (hhead : x.head? ≠ some ' ')
    (hlast : x.getLast? ≠ some ' ') :
    clean x = joinTokens ((splitSp (x.map pyLowerChar)).map Porter.stem) := by
  have h1 : x.map (fun c => if isWordChar c || c == ' ' then c else ' ') = x := by
    apply map_eq_self_of_fixed
    intro c hc
    rcases hchars c hc with h | h
    · simp [h]
    · simp [h]
  have hfacts := splitSp_lower_facts x hne hchars hnd hhead hlast
  have hstemfacts := stemmed_tokens_facts _ (fun t ht => (hfacts t ht).1)
      (fun t ht => (hfacts t ht).2)
  rcases hts : splitSp (x.map pyLowerChar) with _ | ⟨t0, ts'⟩
  · exact absurd hts (splitSp_ne_nil _)
  rw [hts] at hstemfacts
  obtain ⟨hJne, hJhead, hJlast, _, _⟩ :=
    joinTokens_facts ((t0 :: ts').map Porter.stem) (Porter.stem t0)
      (ts'.map Porter.stem) rfl hstemfacts
  unfold clean
  rw [h1, collapse_of_noDouble x hnd, hts, foldl_join_eq ts' t0 [], List.nil_append]
  exact pyStrip_sandwich _ hJne
    (fun c hc => isPySpace_of_isLowerWord c (hJhead c hc))
    (fun c hc => isPySpace_of_isLowerWord c (hJlast c hc))

/-- **C6.** The normalizer `clean` is idempotent on input of ASCII letters,
digits and spaces that has no two adjacent spaces, neither starts nor ends
with a space, and whose tokens are stemmed to Porter-stable words.  The extra
hypotheses are forced, see `clean_not_idempotent_counterexample`: the
single-pass double-space collapse leaves multi-space runs that the second pass
collapses further, and the Porter stemmer itself is not idempotent (e.g.
university → univers → univ), so the claim as stated fails. -/
theorem clean_idempotent (x : Str)
    (hchars : ∀ c ∈ x, isAlnumChar c = true ∨ c = ' ')
    (hnd : hasDouble x = false)
    (hhead : x.head? ≠ some ' ')
    (hlast : x.getLast? ≠ some ' ')
    (hstem : ∀ t ∈ splitSp (x.map pyLowerChar),
      Porter.stem (Porter.stem t) = Porter.stem t) :
    clean (clean x) = clean x := by
  by_cases hne : x = []
  · subst hne
    rfl
  · have hchars2 : ∀ c ∈ x, isWordChar c = true ∨ c = ' ' := by
      intro c hc
      rcases hchars c hc with h | h
      · left
        simp only [isAlnumChar, Bool.or_eq_true, Bool.and_eq_true, decide_eq_true_eq] at h
        simp only [isWordChar, Bool.or_eq_true, Bool.and_eq_true, decide_eq_true_eq,
          beq_iff_eq]
        omega
      · right
        exact h
    have h1 := clean_eq_joinTokens x hne hchars2 hnd hhead hlast
    have hfacts := splitSp_lower_facts x hne hchars2 hnd hhead hlast
    have hstemfacts := stemmed_tokens_facts _ (fun t ht => (hfacts t ht).1)
        (fun t ht => (hfacts t ht).2)
    rcases hts : splitSp (x.map pyLowerChar) with _ | ⟨t0, ts'⟩
    · exact absurd hts (splitSp_ne_nil _)
    rw [hts] at hstemfacts h1 hstem
    obtain ⟨hJne, hJhead, hJlast, hJnd, hJchars⟩ :=
      joinTokens_facts ((t0 :: ts').map Porter.stem) (Porter.stem t0)
        (ts'.map Porter.stem) rfl hstemfacts
    have h2 := clean_eq_joinTokens (joinTokens ((t0 :: ts').map Porter.stem)) hJne
      (fun c hc => (hJchars c hc).imp (fun h => isWordChar_of_isLowerWord c h) id)
      hJnd
      (fun hcon => absurd (hJhead ' ' hcon) (by decide))
      (fun hcon => absurd (hJlast ' ' hcon) (by decide))
    have hmapJ : (joinTokens ((t0 :: ts').map Porter.stem)).map pyLowerChar =
        joinTokens ((t0 :: ts').map Porter.stem) := by
      apply map_eq_self_of_fixed
      intro c hc
      rcases hJchars c hc with h | h
      · exact pyLowerChar_of_isCleanChar c (isCleanChar_of_isLowerWord c h)
      · rw [h]
        exact (pyLowerChar_eq_space_iff ' ').mpr rfl
    have hsplitJ : splitSp (joinTokens ((t0 :: ts').map Porter.stem)) =
        (t0 :: ts').map Porter.stem := by
      apply splitSp_joinTokens
      · intro u hu c hc
        exact isLowerWord_ne_space c ((hstemfacts u hu).2 c hc)
      · exact List.cons_ne_nil _ _
    rw [h1, h2, hmapJ, hsplitJ, List.map_map]
    exact congrArg joinTokens (List.map_congr_left (fun t ht => hstem t ht))

/-- Counterexample to the C6 claim as stated: `"a   b"` consists of ASCII
letters and spaces only, yet `clean (clean "a   b") = "a b"` differs from
`clean "a   b" = "a  b"` because the double-space collapse is a single pass. -/
theorem clean_not_idempotent_counterexample :
    (∀ c ∈ ['a', ' ', ' ', ' ', 'b'], isAlnumChar c = true ∨ c = ' ') ∧
    clean (clean ['a', ' ', ' ', ' ', 'b']) ≠ clean ['a', ' ', ' ', ' ', 'b'] := by
  decide

/-- Witness for `clean_idempotent` at the input `"hello world"`. -/
theorem clean_idempotent_witness :
    clean (clean "hello world".toList) = clean "hello world".toList :=
  clean_idempotent "hello world".toList (by decide) (by decide) (by decide)
    (by decide) (by decide)

lemma dot_smul_left (vocab : List Str) (v w : Str → ℤ) (p : ℤ) :
    dot vocab (fun t => p * v t) w = p * dot vocab v w := by
  unfold dot
  induction vocab with
  | nil => simp
  | cons t rest ih =>
    simp only [List.map_cons, List.sum_cons, ih]
    ring

lemma dot_smul_right (vocab : List Str) (v w : Str → ℤ) (q : ℤ) :
    dot vocab v (fun t => q * w t) = q * dot vocab v w := by
  unfold dot
  induction vocab with
  | nil => simp
  | cons t rest ih =>
    simp only [List.map_cons, List.sum_cons, ih]
    ring

lemma div_sqrt_scale (k x y : ℝ) (hk : 0 < k) :
    (k * x) / Real.sqrt (k ^ 2 * y) = x / Real.sqrt y := by
  rw [Real.sqrt_mul (sq_nonneg k) y, Real.sqrt_sq (le_of_lt hk),
    mul_div_mul_left _ _ (ne_of_gt hk)]

/-- The exact comparison `sgt` agrees with the real ordering of the values
`a / sqrt b` that the scores stand for: the model's integer comparison is the
float comparison `cos > max_similarity` the program performs. -/
lemma sgt_correct (a b c d : ℤ) (hb : 0 < b) (hd : 0 < d) :
    sgt (some (a, b)) (some (c, d)) = true ↔
      (c : ℝ) / Real.sqrt (d : ℝ) < (a : ℝ) / Real.sqrt (b : ℝ) := by
  have hsb : (0:ℝ) < Real.sqrt (b:ℝ) := Real.sqrt_pos.mpr (by exact_mod_cast hb)
  have hsd : (0:ℝ) < Real.sqrt (d:ℝ) := Real.sqrt_pos.mpr (by exact_mod_cast hd)
  have hb2 : Real.sqrt (b:ℝ) ^ 2 = (b:ℝ) := Real.sq_sqrt (by positivity)
  have hd2 : Real.sqrt (d:ℝ) ^ 2 = (d:ℝ) := Real.sq_sqrt (by positivity)
  rw [sgt_some_some, div_lt_div_iff₀ hsd hsb]
  rcases lt_trichotomy a 0 with ha | ha | ha
  · have hra : (a:ℝ) < 0 := by exact_mod_cast ha
    rw [if_neg (by omega), if_neg (by omega)]
    rcases lt_or_ge c 0 with hc | hc
    · have hrc : (c:ℝ) < 0 := by exact_mod_cast hc
      rw [if_pos hc]
      simp only [decide_eq_true_eq]
      have hw : (a:ℝ) * Real.sqrt (d:ℝ) < 0 := mul_neg_of_neg_of_pos hra hsd
      have hu : (c:ℝ) * Real.sqrt (b:ℝ) < 0 := mul_neg_of_neg_of_pos hrc hsb
      constructor
      · intro h
        have h2 : (a:ℝ)^2*(d:ℝ) < (c:ℝ)^2*(b:ℝ) := by exact_mod_cast h
        nlinarith [hb2, hd2, hw, hu]
      · intro h
        have h2 : (a:ℝ)^2*(d:ℝ) < (c:ℝ)^2*(b:ℝ) := by nlinarith [hb2, hd2, hw, hu]
        exact_mod_cast h2
    · have hrc : (0:ℝ) ≤ (c:ℝ) := by exact_mod_cast hc
      rw [if_neg (by omega)]
      simp only [Bool.false_eq_true, false_iff, not_lt]
      calc (a:ℝ) * Real.sqrt (d:ℝ) ≤ 0 := le_of_lt (mul_neg_of_neg_of_pos hra hsd)
        _ ≤ (c:ℝ) * Real.sqrt (b:ℝ) := mul_nonneg hrc (le_of_lt hsb)
  · subst ha
    rw [if_neg (by omega), if_pos rfl]
    simp only [decide_eq_true_eq, Int.cast_zero, zero_mul]
    constructor
    · intro h
      exact mul_neg_of_neg_of_pos (by exact_mod_cast h) hsb
    · intro h
      by_contra hcon
      push_neg at hcon
      have hrc : (0:ℝ) ≤ (c:ℝ) := by exact_mod_cast hcon
      nlinarith [mul_nonneg hrc (le_of_lt hsb)]
  · have hra : (0:ℝ) < (a:ℝ) := by exact_mod_cast ha
    rw [if_pos ha]
    have hw : (0:ℝ) < (a:ℝ) * Real.sqrt (d:ℝ) := mul_pos hra hsd
    rcases lt_or_ge 0 c with hc | hc
    · have hrc : (0:ℝ) < (c:ℝ) := by exact_mod_cast hc
      rw [if_pos hc]
      simp only [decide_eq_true_eq]
      have hu : (0:ℝ) < (c:ℝ) * Real.sqrt (b:ℝ) := mul_pos hrc hsb
      constructor
      · intro h
        have h2 : (c:ℝ)^2*(b:ℝ) < (a:ℝ)^2*(d:ℝ) := by exact_mod_cast h
        nlinarith [hb2, hd2, hw, hu]
      · intro h
        have h2 : (c:ℝ)^2*(b:ℝ) < (a:ℝ)^2*(d:ℝ) := by nlinarith [hb2, hd2, hw, hu]
        exact_mod_cast h2
    · have hrc : (c:ℝ) ≤ 0 := by exact_mod_cast hc
      rw [if_neg (by omega)]
      simp only [true_iff]
      calc (c:ℝ) * Real.sqrt (b:ℝ) ≤ 0 := mul_nonpos_of_nonpos_of_nonneg hrc (le_of_lt hsb)
        _ < (a:ℝ) * Real.sqrt (d:ℝ) := hw

/-- Scaling the two rows by positive scalars (as the omitted `l2` row
normalization does) leaves the real value of the cosine similarity
unchanged. -/
lemma cosine_similarity_smul (vocab : List Str) (v w : Str → ℤ) (p q : ℤ)
    (hp : 0 < p) (hq : 0 < q) (a b a2 b2 : ℤ)
    (h1 : cosine_similarity vocab v w = some (a, b))
    (h2 : cosine_similarity vocab (fun t => p * v t) (fun t => q * w t) = some (a2, b2)) :
    (a2 : ℝ) / Real.sqrt (b2 : ℝ) = (a : ℝ) / Real.sqrt (b : ℝ) := by
  unfold cosine_similarity at h1 h2
  simp only [dot_smul_left, dot_smul_right] at h2
  by_cases hz : dot vocab v v * dot vocab w w = 0
  · rw [if_pos hz] at h1
    exact absurd h1 (by simp)
  · rw [if_neg hz] at h1
    have hpq : p * q ≠ 0 := mul_ne_zero (ne_of_gt hp) (ne_of_gt hq)
    have h3 : p * (p * dot vocab v v) * (q * (q * dot vocab w w)) =
        (p * q) ^ 2 * (dot vocab v v * dot vocab w w) := by ring
    rw [h3, if_neg (mul_ne_zero (pow_ne_zero 2 hpq) hz)] at h2
    obtain ⟨ha1, hb1⟩ : dot vocab v w = a ∧ dot vocab v v * dot vocab w w = b := by
      simpa only [Option.some.injEq, Prod.mk.injEq] using h1
    obtain ⟨ha2, hb2⟩ : q * (p * dot vocab v w) = a2 ∧
        (p * q) ^ 2 * (dot vocab v v * dot vocab w w) = b2 := by
      simpa only [Option.some.injEq, Prod.mk.injEq] using h2
    have hpqr : (0:ℝ) < (p:ℝ) * (q:ℝ) := by
      have h4 : (0:ℝ) < (p:ℝ) := by exact_mod_cast hp
      have h5 : (0:ℝ) < (q:ℝ) := by exact_mod_cast hq
      positivity
    rw [← ha1, ← hb1, ← ha2, ← hb2]
    rw [show ((q * (p * dot vocab v w) : ℤ) : ℝ) =
        ((p:ℝ) * (q:ℝ)) * ((dot vocab v w : ℤ) : ℝ) from by push_cast; ring,
      show (((p * q) ^ 2 * (dot vocab v v * dot vocab w w) : ℤ) : ℝ) =
        ((p:ℝ) * (q:ℝ)) ^ 2 * (((dot vocab v v * dot vocab w w) : ℤ) : ℝ) from by
          push_cast; ring]
    exact div_sqrt_scale ((p:ℝ) * (q:ℝ)) _ _ hpqr
